import Mathlib

/-!
Verification of the Openstrat competitive-hiring-intelligence pipeline.

This file gives a shallow embedding of the insight-derivation pipeline
(`src/data_processor.py` and `src/analyzer.py`) and proves the behavioural
claims about it.  Python dictionaries are modelled as association lists with
insertion-order semantics (update in place, append new keys), Python floats
as exact rationals, and the try/except failure wrappers as `Option`-valued
core functions whose `none` branch selects the documented fallback value.
-/

namespace Openstrat

/-! ## Association-list dictionaries (Python `dict` semantics) -/

/-- Lookup of a key in an association list: the first binding wins,
mirroring the unique-key invariant of a Python `dict`.  The key type is
generic because some Python dicts in this pipeline are keyed by values
that may be `None` (e.g. `company.get("name")`). -/
def dget [DecidableEq κ] (k : κ) : List (κ × α) → Option α
  | [] => none
  | (k2, v) :: t => if k = k2 then some v else dget k t

/-- Dictionary assignment `d[k] = v`: overwrite the binding in place if the
key exists, otherwise append it (Python `dict` insertion order). -/
def dinsert [DecidableEq κ] (k : κ) (v : α) : List (κ × α) → List (κ × α)
  | [] => [(k, v)]
  | (k2, v2) :: t => if k = k2 then (k2, v) :: t else (k2, v2) :: dinsert k v t

/-- The tally idiom `d[k] = d[k] + 1 if k in d else 1`. -/
def bump (k : String) : List (String × Nat) → List (String × Nat)
  | [] => [(k, 1)]
  | (k2, v) :: t => if k = k2 then (k2, v + 1) :: t else (k2, v) :: bump k t

/-- The tally idiom `d[k] = d.get(k, 0) + n` (accumulating integer counts). -/
def bumpBy (k : String) (n : Int) : List (String × Int) → List (String × Int)
  | [] => [(k, n)]
  | (k2, v) :: t => if k = k2 then (k2, v + n) :: t else (k2, v) :: bumpBy k n t

/-- The guarded idiom `if k in d: d[k] += 1` (no new key is created). -/
def bumpIfMem (k : String) : List (String × Nat) → List (String × Nat)
  | [] => []
  | (k2, v) :: t => if k = k2 then (k2, v + 1) :: t else (k2, v) :: bumpIfMem k t

/-- Counting a list of occurrences into a dict, as the per-job tally loops do. -/
def buildCounts (l : List String) : List (String × Nat) :=
  l.foldl (fun acc r => bump r acc) []

/-- Python `set.add` modelled with a deterministic first-insertion order. -/
def insSet (l : List String) (x : String) : List String :=
  if x ∈ l then l else l ++ [x]

/-! ## Stable sorting (Python `list.sort(key=…, reverse=True)`)

Python sorts are stable; `sortGe ge` is a stable insertion sort that places
`x` before `y` whenever `ge x y`, so with `ge a b = (key a ≥ key b)` it
computes exactly a stable descending sort by `key`. -/

def insGe (ge : α → α → Bool) (x : α) : List α → List α
  | [] => [x]
  | y :: t => if ge x y then x :: y :: t else y :: insGe ge x t

def sortGe (ge : α → α → Bool) : List α → List α
  | [] => []
  | x :: t => insGe ge x (sortGe ge t)

/-- Lexicographic code-point order on character lists (Python string `<=`),
used for `sorted` over date strings. -/
def lexLe : List Char → List Char → Bool
  | [], _ => true
  | _ :: _, [] => false
  | a :: s, b :: t => if a = b then lexLe s t else decide (a < b)

/-! ## Character classes of the Python `re` module (ASCII fragment) -/

def pyDigit (c : Char) : Bool := c.isDigit

def pyWord (c : Char) : Bool := c.isAlphanum || c = '_'

def pySpace (c : Char) : Bool :=
  c = ' ' || c = '\t' || c = '\n' || c = '\r' || c = '\x0b' || c = '\x0c'

/-- Case-insensitive substring test, modelling Python
`needle.lower() in hay.lower()` for the ASCII keyword tables. -/
def containsSubCI (needle hay : List Char) : Bool :=
  (List.range (hay.length + 1)).any fun i =>
    decide (((hay.drop i).take needle.length).map Char.toLower = needle.map Char.toLower)

/-- Case-sensitive substring test, modelling Python `needle in hay`. -/
def containsSub (needle hay : List Char) : Bool :=
  (List.range (hay.length + 1)).any fun i =>
    decide ((hay.drop i).take needle.length = needle)

/-! ## `extract_salary_range` (src/data_processor.py, lines 176-208)

The regex is
 `[\$£€](\d{1,3}(?:,\d{3})*|\d+)K?\s*-\s*[\$£€](\d{1,3}(?:,\d{3})*|\d+)K?`
searched with `re.search`.  We model the backtracking search exactly:
candidates for each alternation are enumerated in the engine's priority
order (first alternative before the second, greedy quantifiers longest
first) and the first candidate whose continuation succeeds wins; `re.search`
commits to the leftmost starting position that admits a match. -/

def isCurrency (c : Char) : Bool := c = '$' || c = '£' || c = '€'

/-- Length of the maximal run of leading digits. -/
def digitRun : List Char → Nat
  | c :: t => if pyDigit c then digitRun t + 1 else 0
  | [] => 0

/-- Take exactly `n` leading digits, if present. -/
def takeDigits (n : Nat) (s : List Char) : Option (List Char × List Char) :=
  if n ≤ digitRun s then some (s.take n, s.drop n) else none

/-- All ways the greedy `(?:,\d{3})*` can proceed, longest first, returned
as (consumed text, remaining input). -/
def commaChain : List Char → List (List Char × List Char)
  | ',' :: a :: b :: c :: rest =>
    if pyDigit a && pyDigit b && pyDigit c then
      ((commaChain rest).map fun p => (',' :: a :: b :: c :: p.1, p.2)) ++
        [([], ',' :: a :: b :: c :: rest)]
    else [([], ',' :: a :: b :: c :: rest)]
  | s => [([], s)]

/-- Candidates of the first alternative `\d{1,3}(?:,\d{3})*`, in
backtracking priority order (3, then 2, then 1 leading digits; comma
groups longest first). -/
def numAltOne (s : List Char) : List (List Char × List Char) :=
  [3, 2, 1].flatMap fun d =>
    match takeDigits d s with
    | some (ds, r) => (commaChain r).map fun p => (ds ++ p.1, p.2)
    | none => []

/-- Candidates of the second alternative `\d+`, longest first. -/
def numAltTwo (s : List Char) : List (List Char × List Char) :=
  (List.range (digitRun s)).map fun k =>
    (s.take (digitRun s - k), s.drop (digitRun s - k))

/-- All candidates for the number group, in the engine's priority order. -/
def numCandidates (s : List Char) : List (List Char × List Char) :=
  numAltOne s ++ numAltTwo s

/-- The greedy optional `K?`: consume a `K` first if one is present. -/
def optK : List Char → List (List Char)
  | 'K' :: r => [r, 'K' :: r]
  | s => [s]

def dropSpaces (s : List Char) : List Char := s.dropWhile pySpace

/-- Match the pattern after an initial currency symbol, returning the two
captured number groups. -/
def matchTail (s : List Char) : Option (List Char × List Char) :=
  (numCandidates s).findSome? fun p =>
    (optK p.2).findSome? fun r2 =>
      match dropSpaces r2 with
      | '-' :: r4 =>
        match dropSpaces r4 with
        | c2 :: r6 =>
          if isCurrency c2 then
            match numCandidates r6 with
            | q :: _ => some (p.1, q.1)
            | [] => none
          else none
        | [] => none
      | _ => none

/-- Try to match the whole pattern starting exactly here. -/
def matchHere : List Char → Option (List Char × List Char)
  | c :: rest => if isCurrency c then matchTail rest else none
  | [] => none

/-- `re.search`: leftmost starting position wins. -/
def reSearch : List Char → Option (List Char × List Char)
  | [] => none
  | c :: t =>
    match matchHere (c :: t) with
    | some r => some r
    | none => reSearch t

/-- Numeric value of a digit string (commas already removed); `float` of a
digit-only string is exact for these magnitudes. -/
def digitsToNat (l : List Char) : Nat :=
  l.foldl (fun a c => a * 10 + (c.toNat - Char.toNat '0')) 0

/-- src/data_processor.py `extract_salary_range`: parse the two groups,
strip commas, and divide both by 1000 when the text has no `K` and the
parsed minimum exceeds 1000.  The try/except wrapper and the no-match case
both yield `(None, None)`. -/
def extract_salary_range (salary_text : String) : Option ℚ × Option ℚ :=
  match reSearch salary_text.data with
  | some (g1, g2) =>
    let min_salary : ℚ := (digitsToNat (g1.filter fun c => c ≠ ',') : ℚ)
    let max_salary : ℚ := (digitsToNat (g2.filter fun c => c ≠ ',') : ℚ)
    if 'K' ∉ salary_text.data ∧ 1000 < min_salary then
      (some (min_salary / 1000), some (max_salary / 1000))
    else
      (some min_salary, some max_salary)
  | none => (none, none)

/-! ## `extract_skills_from_text` (src/data_processor.py, lines 142-174)

For each keyword the code searches `\b<escaped keyword>\b` with
`re.IGNORECASE`.  `\b` is a zero-width word-boundary assertion: it holds at
a position iff exactly one of the adjacent characters is a word character
(string ends count as non-word). -/

def common_skills : List String :=
  ["Python", "Java", "JavaScript", "C++", "C#", "SQL", "React", "Angular",
   "Vue", "Node.js", "AWS", "GCP", "Azure", "Docker", "Kubernetes",
   "Machine Learning", "AI", "Data Science", "Cloud", "DevOps",
   "CI/CD", "Agile", "Scrum", "Product Management", "UX", "UI",
   "Design", "Marketing", "Sales", "Finance", "HR", "Operations",
   "Communication", "Leadership", "Project Management", "Teamwork",
   "Problem Solving", "Critical Thinking", "Analytics", "Statistics",
   "Research", "Development", "Testing", "QA", "Security", "Networking",
   "Database", "Frontend", "Backend", "Full Stack", "Mobile", "iOS",
   "Android", "REST", "API", "Microservices", "Big Data", "Hadoop",
   "Spark", "Tableau", "Power BI", "Excel", "Word", "PowerPoint",
   "Office", "Git", "GitHub", "Jira", "Confluence", "Slack", "Teams"]

/-- Is the character at index `i` a word character (out-of-range counts as
non-word, matching string boundaries)? -/
def wordAt (hay : List Char) (i : Nat) : Bool :=
  match hay.get? i with
  | some c => pyWord c
  | none => false

/-- The `\b` assertion at position `i`. -/
def boundaryAt (hay : List Char) : Nat → Bool
  | 0 => wordAt hay 0
  | j + 1 => wordAt hay (j + 1) != wordAt hay j

/-- Case-insensitive literal match of `needle` at position `i` of `hay`. -/
def sliceEqCI (needle hay : List Char) (i : Nat) : Bool :=
  decide (((hay.drop i).take needle.length).map Char.toLower = needle.map Char.toLower)

/-- Does `\b<needle>\b` (case-insensitive) match at position `i`? -/
def wordMatchAt (needle hay : List Char) (i : Nat) : Bool :=
  sliceEqCI needle hay i && boundaryAt hay i && boundaryAt hay (i + needle.length)

/-- Does `re.search` find `\b<needle>\b` anywhere in `hay`? -/
def wordSearch (needle hay : List Char) : Bool :=
  (List.range (hay.length + 1)).any fun i => wordMatchAt needle hay i

/-- src/data_processor.py `extract_skills_from_text`: keywords found, in the
fixed-list order, each at most once. -/
def extract_skills_from_text (text : String) : List String :=
  common_skills.filter fun skill => wordSearch skill.data text.data

/-! ## `process_job_data` (src/data_processor.py, lines 15-140)

A job listing is a string-keyed record; fields whose absence the code
tolerates (or crashes on) are `Option`-valued.  A missing `requirements`
key is read with `.get("requirements", [])`, so it is modelled directly as
the empty list.  The whole function body is wrapped in try/except; the
model makes the fallible steps (`job["title"]`, `job["location"]`,
`datetime.strptime(job["date"], "%Y-%m-%d")`) `Option`-valued and lets any
failure select the documented skeleton result.  `datetime.now()` is a
real-time dependency: the derived list of the last 30 formatted day strings
is passed in as the `dateRange` parameter. -/

structure Job where
  title : Option String
  location : Option String
  requirements : List String
  date : Option String
  salary_range : Option String
deriving DecidableEq

structure SalaryRec where
  role : String
  min_salary : ℚ
  max_salary : ℚ
  avg_salary : ℚ
deriving DecidableEq

structure Processed where
  companies : List String
  job_counts : List Nat
  roles : List (String × List (String × Nat))
  locations : List (String × List (String × Nat))
  skills : List (String × List (String × Nat))
  time_series : List (String × List (String × Nat))
  salary_ranges : List (String × List SalaryRec)
  all_roles : Option (List String)
  all_locations : Option (List String)
  all_skills : Option (List String)
deriving DecidableEq

/-- Is a year a Gregorian leap year? -/
def isLeap (y : Nat) : Bool := y % 4 = 0 && (y % 100 ≠ 0 || y % 400 = 0)

def daysInMonth (y m : Nat) : Nat :=
  if m = 2 then (if isLeap y then 29 else 28)
  else if m = 4 || m = 6 || m = 9 || m = 11 then 30
  else 31

def validYMD (y m d : Nat) : Bool :=
  decide (1 ≤ y) && decide (y ≤ 9999) && decide (1 ≤ m) && decide (m ≤ 12) &&
  decide (1 ≤ d) && decide (d ≤ daysInMonth y m)

/-- The `%m` field of CPython `_strptime`: the regex alternation
`1[0-2]|0[1-9]|[1-9]`, candidates returned in the engine's priority
order as (value, remaining input). -/
def mCands (s : List Char) : List (Nat × List Char) :=
  (match s with
   | '1' :: c :: r =>
     if '0' ≤ c ∧ c ≤ '2' then [(10 + (c.toNat - Char.toNat '0'), r)] else []
   | _ => []) ++
  (match s with
   | '0' :: c :: r =>
     if '1' ≤ c ∧ c ≤ '9' then [(c.toNat - Char.toNat '0', r)] else []
   | _ => []) ++
  (match s with
   | c :: r =>
     if '1' ≤ c ∧ c ≤ '9' then [(c.toNat - Char.toNat '0', r)] else []
   | _ => [])

/-- The `%d` field of CPython `_strptime`: the regex alternation
`3[01]|[12]\d|0[1-9]|[1-9]| [1-9]` (the last alternative is the ANSI-C
space-padded day), candidates in priority order. -/
def dCands (s : List Char) : List (Nat × List Char) :=
  (match s with
   | '3' :: c :: r =>
     if c = '0' ∨ c = '1' then [(30 + (c.toNat - Char.toNat '0'), r)] else []
   | _ => []) ++
  (match s with
   | c1 :: c2 :: r =>
     if (c1 = '1' ∨ c1 = '2') ∧ c2.isDigit then
       [((c1.toNat - Char.toNat '0') * 10 + (c2.toNat - Char.toNat '0'), r)]
     else []
   | _ => []) ++
  (match s with
   | '0' :: c :: r =>
     if '1' ≤ c ∧ c ≤ '9' then [(c.toNat - Char.toNat '0', r)] else []
   | _ => []) ++
  (match s with
   | c :: r =>
     if '1' ≤ c ∧ c ≤ '9' then [(c.toNat - Char.toNat '0', r)] else []
   | _ => []) ++
  (match s with
   | ' ' :: c :: r =>
     if '1' ≤ c ∧ c ≤ '9' then [(c.toNat - Char.toNat '0', r)] else []
   | _ => [])

/-- `datetime.strptime(s, "%Y-%m-%d")`, per CPython `_strptime`: `%Y` is
exactly four digits (`\d\d\d\d`), `%m` is `1[0-2]|0[1-9]|[1-9]`, `%d` is
`3[01]|[12]\d|0[1-9]|[1-9]| [1-9]` (so a space-padded day like `" 5"` is
accepted), with literal dashes between and the whole string consumed
(leftover input raises "unconverted data remains").  The first full regex
match, in backtracking priority order, is then validated by the `datetime`
constructor — an out-of-range day or year raises, it does not backtrack.
`none` models the `ValueError` the caller does not catch. -/
def parseDateYMD (s : String) : Option (Nat × Nat × Nat) :=
  let cands : List (Nat × Nat × Nat) :=
    match takeDigits 4 s.data with
    | some (ys, r1) =>
      match r1 with
      | '-' :: r2 =>
        (mCands r2).flatMap fun mp =>
          match mp.2 with
          | '-' :: r4 =>
            (dCands r4).flatMap fun dp =>
              if dp.2 = [] then [(digitsToNat ys, mp.1, dp.1)] else []
          | _ => []
      | _ => []
    | none => []
  match cands.head? with
  | some (y, m, d) => if validYMD y m d then some (y, m, d) else none
  | none => none

/-- Zero-padded decimal rendering, as `strftime` field formatting. -/
def padNum (w n : Nat) : List Char :=
  let ds := Nat.toDigits 10 n
  List.replicate (w - ds.length) '0' ++ ds

/-- `strftime("%Y-%m-%d")`. -/
def fmtYMD (y m d : Nat) : String :=
  ⟨padNum 4 y ++ '-' :: (padNum 2 m ++ '-' :: padNum 2 d)⟩

/-- Collect one `Option`-valued field from every listing; `none` iff some
listing lacks it (the `job["..."]` `KeyError`). -/
def getAll (f : Job → Option α) : List Job → Option (List α)
  | [] => some []
  | j :: t =>
    match f j, getAll f t with
    | some x, some xs => some (x :: xs)
    | _, _ => none

/-- Parse the dates of the listings that carry one; `none` iff some present
date string fails `strptime` (the uncaught `ValueError`). -/
def getDates : List Job → Option (List (Nat × Nat × Nat))
  | [] => some []
  | j :: t =>
    match j.date with
    | some ds =>
      match parseDateYMD ds, getDates t with
      | some d, some rest => some (d :: rest)
      | _, _ => none
    | none => getDates t

/-- Per-company skill tally: every requirement of every listing is run
through `extract_skills_from_text` and each hit is counted. -/
def skillTally (listings : List Job) : List (String × Nat) :=
  listings.foldl
    (fun acc job =>
      job.requirements.foldl
        (fun acc2 req => (extract_skills_from_text req).foldl (fun a sk => bump sk a) acc2)
        acc)
    []

/-- The skills of a company in extraction order (feeds the `all_skills`
set). -/
def skillSeq (listings : List Job) : List String :=
  listings.flatMap fun job => job.requirements.flatMap extract_skills_from_text

/-- The 30-day histogram: every day of `dateRange` starts at 0 and each
parsed listing date bumps its day iff the formatted date is a key. -/
def timeSeries (dateRange : List String) (dates : List (Nat × Nat × Nat)) :
    List (String × Nat) :=
  dates.foldl (fun acc d => bumpIfMem (fmtYMD d.1 d.2.1 d.2.2) acc)
    (dateRange.map fun d => (d, 0))

/-- Per-company salary records.  `if min_salary and max_salary` is Python
truthiness: `None` and `0.0` are both falsy.  The `job["title"]` read here
cannot fail because the roles loop has already raised for a missing title;
the model reads the field with a default that is never used on the
successful path. -/
def salaryRecs (listings : List Job) : List SalaryRec :=
  listings.foldl
    (fun acc job =>
      match job.salary_range with
      | some st =>
        match extract_salary_range st with
        | (some mn, some mx) =>
          if mn ≠ 0 ∧ mx ≠ 0 then
            acc ++ [⟨job.title.getD "", mn, mx, (mn + mx) / 2⟩]
          else acc
        | _ => acc
      | none => acc)
    []

/-- Everything `process_job_data` derives for a single company, plus the
raw title/location/skill sequences that feed the global unions. -/
structure CompanyData where
  roles : List (String × Nat)
  locations : List (String × Nat)
  skills : List (String × Nat)
  time_series : List (String × Nat)
  salary_ranges : List SalaryRec
  titles : List String
  locs : List String
  skl : List String
deriving DecidableEq

def processCompany (dateRange : List String) (listings : List Job) : Option CompanyData :=
  match getAll (fun j => j.title) listings, getAll (fun j => j.location) listings,
      getDates listings with
  | some titles, some locs, some dates =>
    some { roles := buildCounts titles
           locations := buildCounts locs
           skills := skillTally listings
           time_series := timeSeries dateRange dates
           salary_ranges := salaryRecs listings
           titles := titles
           locs := locs
           skl := skillSeq listings }
  | _, _, _ => none

/-- The per-company loop of `process_job_data`: `none` as soon as any
company raises. -/
def processCompanies (dateRange : List String) :
    List (String × List Job) → Option (List (String × Nat × CompanyData))
  | [] => some []
  | (c, ls) :: t =>
    match processCompany dateRange ls, processCompanies dateRange t with
    | some cd, some rest => some ((c, ls.length, cd) :: rest)
    | _, _ => none

/-- Reassemble the per-company results into the `processed_data` dict.  The
input keys come from a Python dict and are therefore distinct, so the
per-company maps are written as plain association lists in input order; the
three `all_*` sets are modelled with a deterministic first-insertion
order. -/
def assemble (cds : List (String × Nat × CompanyData)) : Processed :=
  { companies := cds.map fun x => x.1
    job_counts := cds.map fun x => x.2.1
    roles := cds.map fun x => (x.1, x.2.2.roles)
    locations := cds.map fun x => (x.1, x.2.2.locations)
    skills := cds.map fun x => (x.1, x.2.2.skills)
    time_series := cds.map fun x => (x.1, x.2.2.time_series)
    salary_ranges := cds.map fun x => (x.1, x.2.2.salary_ranges)
    all_roles := some (cds.foldl (fun acc x => x.2.2.titles.foldl insSet acc) [])
    all_locations := some (cds.foldl (fun acc x => x.2.2.locs.foldl insSet acc) [])
    all_skills := some (cds.foldl (fun acc x => x.2.2.skl.foldl insSet acc) []) }

/-- src/data_processor.py `process_job_data`: on any exception the except
branch returns the minimal skeleton (company names and raw listing counts,
all derived maps empty, and no `all_*` keys at all — hence `none`). -/
def process_job_data (dateRange : List String) (job_listings : List (String × List Job)) :
    Processed :=
  match processCompanies dateRange job_listings with
  | some cds => assemble cds
  | none =>
    { companies := job_listings.map fun x => x.1
      job_counts := job_listings.map fun x => x.2.length
      roles := []
      locations := []
      skills := []
      time_series := []
      salary_ranges := []
      all_roles := none
      all_locations := none
      all_skills := none }

/-! ## `aggregate_job_data` (src/data_processor.py, lines 210-306) -/

/-- Values stored in a distribution row: the label cell holds a string,
the per-company cells hold counts. -/
inductive Val where
  | str (s : String)
  | intv (n : Nat)
deriving DecidableEq

structure HeatCell where
  skill : String
  company : String
  count : Nat
deriving DecidableEq

structure Aggregated where
  total_jobs_by_company : List (String × Nat)
  skills_by_company : List (String × List (String × Nat))
  locations_by_company : List (String × List (String × Nat))
  roles_by_company : List (String × List (String × Nat))
  skills_heatmap_data : List HeatCell
  location_distribution : List (List (String × Val))
  role_distribution : List (List (String × Val))
  hiring_velocity : List (List (String × Val))
deriving DecidableEq

/-- The `data[company][key] if company in data and key in data[company]
else 0` access pattern shared by the three row builders. -/
def lookupCount (c : String) (m : List (String × List (String × Nat))) (k : String) : Nat :=
  match dget c m with
  | some inner =>
    match dget k inner with
    | some n => n
    | none => 0
  | none => 0

/-- One distribution row: a dict seeded with the label cell and then
assigned one count per company in order. -/
def distRow (label lv : String) (companies : List String) (get : String → Nat) :
    List (String × Val) :=
  companies.foldl (fun acc c => dinsert c (Val.intv (get c)) acc) [(label, Val.str lv)]

/-- The body of `aggregate_job_data`.  Reading a missing `all_*` key is a
`KeyError`, and `next(iter({}.values()))` on an empty time-series dict
raises `StopIteration`; both are swallowed by the except branch (`none`). -/
def aggregateCore (p : Processed) : Option Aggregated :=
  match p.all_skills, p.all_locations, p.all_roles with
  | some allSk, some allLoc, some allRl =>
    match p.time_series with
    | [] => none
    | (_, ts0) :: _ =>
      some
        { total_jobs_by_company :=
            (p.companies.zip p.job_counts).foldl (fun acc x => dinsert x.1 x.2 acc) []
          skills_by_company := p.skills.foldl (fun acc x => dinsert x.1 x.2 acc) []
          locations_by_company := p.locations.foldl (fun acc x => dinsert x.1 x.2 acc) []
          roles_by_company := p.roles.foldl (fun acc x => dinsert x.1 x.2 acc) []
          skills_heatmap_data :=
            if allSk = [] then []
            else
              allSk.flatMap fun sk =>
                p.companies.filterMap fun c =>
                  match dget c p.skills with
                  | some m => (dget sk m).map fun n => { skill := sk, company := c, count := n }
                  | none => none
          location_distribution :=
            allLoc.map fun loc =>
              distRow "location" loc p.companies fun c => lookupCount c p.locations loc
          role_distribution :=
            allRl.map fun role =>
              distRow "role" role p.companies fun c => lookupCount c p.roles role
          hiring_velocity :=
            (sortGe (fun a b => lexLe a.data b.data) (ts0.map fun x => x.1)).map fun d =>
              distRow "date" d p.companies fun c => lookupCount c p.time_series d }
  | _, _, _ => none

/-- src/data_processor.py `aggregate_job_data` with its catch-all fallback
to the empty-but-well-shaped structure. -/
def aggregate_job_data (p : Processed) : Aggregated :=
  match aggregateCore p with
  | some a => a
  | none => ⟨[], [], [], [], [], [], [], []⟩

/-- Integer content of a row cell (0 for a missing or label cell). -/
def valInt : Option Val → Nat
  | some (Val.intv n) => n
  | _ => 0

/-- Column sum of one company over the rows of a distribution table. -/
def colSum (c : String) (rows : List (List (String × Val))) : Nat :=
  (rows.map fun row => valInt (dget c row)).sum

/-! ## `analyze_hiring_trends` (src/analyzer.py, lines 16-152)

The analyzer functions take an `AggregatedData`-like dict with keyed access
and membership checks, so the model's optional fields mirror the
`if "key" in processed_data` guards.  Cell values are Python ints, modelled
as `Int`; the label cells of velocity rows (the `"date"` key, which these
functions never read) are omitted.  Insight records are modelled as typed
constructors carrying the data fields; the human-readable `insight` message
string is derived display text and is not modelled. -/

structure AggData where
  companies : List String
  hiring_velocity : Option (List (List (String × Int)))
  roles_by_company : Option (List (String × List (String × Int)))
  locations_by_company : Option (List (String × List (String × Int)))
  skills_by_company : Option (List (String × List (String × Int)))
deriving DecidableEq

inductive TrInsight where
  | hiringSurge (company : String) (percent_change : ℚ)
  | hiringDecline (company : String) (percent_change : ℚ)
  | leadershipChanges (company : String) (count : Int)
  | technologyFocus (company category : String) (count : Int)
  | remoteWork (company : String) (percentage : ℚ)
  | geographicExpansion (company region : String) (count : Int)
deriving DecidableEq

/-- `sum(data[company] for data in rows if company in data)`. -/
def sumFor (c : String) (rows : List (List (String × Int))) : Int :=
  (rows.map fun row =>
    match dget c row with
    | some n => n
    | none => 0).sum

def leadership_roles : List String :=
  ["CEO", "CFO", "CTO", "COO", "CHRO", "CMO", "President", "Director", "VP", "Head"]

def tech_categories : List (String × List String) :=
  [("AI/ML", ["AI", "Machine Learning", "Data Scientist", "NLP", "Computer Vision",
              "Deep Learning"]),
   ("Cloud", ["AWS", "Azure", "GCP", "Cloud", "DevOps", "SRE", "Kubernetes"]),
   ("Mobile", ["iOS", "Android", "Mobile", "React Native", "Flutter"]),
   ("Frontend", ["Frontend", "UI", "UX", "React", "Angular", "Vue"]),
   ("Backend", ["Backend", "API", "Microservices", "Node.js", "Java", "Python", "Go",
                "Ruby"])]

def hiring_regions : List (String × List String) :=
  [("North America", ["US", "USA", "United States", "Canada", "Mexico"]),
   ("Europe", ["UK", "United Kingdom", "Germany", "France", "Spain", "Italy",
               "Netherlands", "Sweden"]),
   ("Asia", ["China", "Japan", "India", "Singapore", "Hong Kong"]),
   ("Latin America", ["Brazil", "Argentina", "Colombia", "Chile", "Peru"]),
   ("Africa", ["South Africa", "Nigeria", "Kenya", "Egypt"]),
   ("Australia/Oceania", ["Australia", "New Zealand"])]

/-- Tally of the entries whose key contains any of the keywords,
case-insensitively (`any(keyword.lower() in key.lower() …)`). -/
def matchSum (kws : List String) (m : List (String × Int)) : Int :=
  ((m.filter fun p => kws.any fun k => containsSubCI k.data p.1.data).map fun p => p.2).sum

/-- Tally of the entries whose key contains any leadership keyword,
case-sensitively (`any(leader in role …)`). -/
def leadSum (m : List (String × Int)) : Int :=
  ((m.filter fun p => leadership_roles.any fun ld => containsSub ld.data p.1.data).map
    fun p => p.2).sum

/-- Hiring-velocity analysis: split at the index midpoint (the extra entry
of an odd-length series goes to the recent slice `[half:]`), and emit
surge/decline per company on the strict ±30 thresholds when the earlier sum
is positive. -/
def velocitySection (companies : List String)
    (vd : Option (List (List (String × Int)))) : List TrInsight :=
  match vd with
  | none => []
  | some rows =>
    companies.flatMap fun c =>
      let recent_count := sumFor c (rows.drop (rows.length / 2))
      let earlier_count := sumFor c (rows.take (rows.length / 2))
      if 0 < earlier_count then
        let pct : ℚ :=
          ((recent_count : ℚ) - (earlier_count : ℚ)) / (earlier_count : ℚ) * 100
        if 30 < pct then [TrInsight.hiringSurge c pct]
        else if pct < -30 then [TrInsight.hiringDecline c pct]
        else []
      else []

/-- Role-pattern analysis: leadership tally (≥ 2) and the five tech
categories (≥ 3), per company in dict order. -/
def roleSection (rbc : Option (List (String × List (String × Int)))) : List TrInsight :=
  match rbc with
  | none => []
  | some l =>
    l.flatMap fun p =>
      (if 2 ≤ leadSum p.2 then [TrInsight.leadershipChanges p.1 (leadSum p.2)] else []) ++
      tech_categories.flatMap fun cat =>
        if 3 ≤ matchSum cat.2 p.2 then
          [TrInsight.technologyFocus p.1 cat.1 (matchSum cat.2 p.2)]
        else []

/-- Remote-share analysis for one company (> 50 % of a positive total). -/
def remotePart (company : String) (locations : List (String × Int)) : List TrInsight :=
  if 0 < (locations.map fun p => p.2).sum then
    if 50 < (matchSum ["remote"] locations : ℚ) / ((locations.map fun p => p.2).sum : ℚ) * 100
    then [TrInsight.remoteWork company
      ((matchSum ["remote"] locations : ℚ) / ((locations.map fun p => p.2).sum : ℚ) * 100)]
    else []
  else []

/-- Region tallies for one company: the source loops over every location and
adds its count to EVERY region whose keyword list matches (there is no
`break`), then reports each region reaching 3. -/
def regionPart (company : String) (locations : List (String × Int)) : List TrInsight :=
  hiring_regions.flatMap fun rg =>
    if 3 ≤ matchSum rg.2 locations then
      [TrInsight.geographicExpansion company rg.1 (matchSum rg.2 locations)]
    else []

def locationSection (lbc : Option (List (String × List (String × Int)))) : List TrInsight :=
  match lbc with
  | none => []
  | some l => l.flatMap fun p => remotePart p.1 p.2 ++ regionPart p.1 p.2

/-- src/analyzer.py `analyze_hiring_trends` (its body cannot raise on this
typed input, so the except branch is dead in the model). -/
def analyze_hiring_trends (pd : AggData) : List TrInsight :=
  velocitySection pd.companies pd.hiring_velocity ++
    roleSection pd.roles_by_company ++
    locationSection pd.locations_by_company

/-- Discriminator for the velocity-derived insight constructors. -/
def isVelocityIns : TrInsight → Bool
  | TrInsight.hiringSurge _ _ => true
  | TrInsight.hiringDecline _ _ => true
  | _ => false

/-- Discriminator for the role-derived insight constructors. -/
def isRoleIns : TrInsight → Bool
  | TrInsight.leadershipChanges _ _ => true
  | TrInsight.technologyFocus _ _ _ => true
  | _ => false

/-- Discriminator for the location-derived insight constructors. -/
def isLocIns : TrInsight → Bool
  | TrInsight.remoteWork _ _ => true
  | TrInsight.geographicExpansion _ _ _ => true
  | _ => false

/-! ## `identify_skill_patterns` (src/analyzer.py, lines 154-249) -/

inductive SkInsight where
  | emergingSkill (skill : String) (prevalence : ℚ) (demand : Int)
  | competitiveSkill (skill : String) (prevalence : ℚ) (demand : Int)
  | uniqueSkill (company skill : String) (count : Int)
deriving DecidableEq

/-- The `all_skills` set: the union of every company's skill keys.  Python
set iteration order is arbitrary; the model fixes first-insertion order
(this only affects tie-breaking among equal demands, which the source
leaves unspecified). -/
def allSkillsOf (sbc : List (String × List (String × Int))) : List String :=
  sbc.foldl (fun acc p => (p.2.map fun q => q.1).foldl insSet acc) []

/-- `sum(1 for company, skills in … if skill in skills)`. -/
def companiesWith (skill : String) (sbc : List (String × List (String × Int))) : Nat :=
  (sbc.filter fun p => (dget skill p.2).isSome).length

/-- `sum(skills.get(skill, 0) for skills in …)`. -/
def totalDemand (skill : String) (sbc : List (String × List (String × Int))) : Int :=
  (sbc.map fun p =>
    match dget skill p.2 with
    | some n => n
    | none => 0).sum

/-- The company-unique skills loop body: skills of this company that no
other company lists and whose count is at least 2. -/
def uniqueCandidates (sbc : List (String × List (String × Int))) (company : String)
    (company_skills : List (String × Int)) : List (String × Int) :=
  company_skills.filterMap fun q =>
    if (sbc.filter fun p => p.1 ≠ company ∧ (dget q.1 p.2).isSome).length = 0 ∧ 2 ≤ q.2
    then some q else none

/-- The top three unique candidates: Python stable sort by count descending,
then `[:3]`. -/
def uniqueTop3 (sbc : List (String × List (String × Int))) (company : String)
    (company_skills : List (String × Int)) : List (String × Int) :=
  (sortGe (fun a b => decide (b.2 ≤ a.2)) (uniqueCandidates sbc company company_skills)).take 3

/-- src/analyzer.py `identify_skill_patterns`: emerging skills (prevalence
in [0.1, 0.4], demand ≥ 5, top 5 by demand), competitive skills (prevalence
≥ 0.7, demand ≥ 10, top 5 by demand), then per-company unique skills.  With
zero companies but a non-empty skill set the prevalence computation raises
`ZeroDivisionError`, which the except branch converts to `[]`. -/
def identify_skill_patterns (pd : AggData) : List SkInsight :=
  match pd.skills_by_company with
  | none => []
  | some sbc =>
    if pd.companies.length = 0 ∧ allSkillsOf sbc ≠ [] then []
    else
      ((sortGe (fun a b => decide (b.2.2 ≤ a.2.2))
          ((allSkillsOf sbc).filterMap fun skill =>
            if 0.1 ≤ (companiesWith skill sbc : ℚ) / (pd.companies.length : ℚ) ∧
                (companiesWith skill sbc : ℚ) / (pd.companies.length : ℚ) ≤ 0.4 then
              if 5 ≤ totalDemand skill sbc then
                some (skill, (companiesWith skill sbc : ℚ) / (pd.companies.length : ℚ),
                      totalDemand skill sbc)
              else none
            else none)).take 5).map
        (fun q => SkInsight.emergingSkill q.1 q.2.1 q.2.2) ++
      ((sortGe (fun a b => decide (b.2.2 ≤ a.2.2))
          ((allSkillsOf sbc).filterMap fun skill =>
            if 0.7 ≤ (companiesWith skill sbc : ℚ) / (pd.companies.length : ℚ) then
              if 10 ≤ totalDemand skill sbc then
                some (skill, (companiesWith skill sbc : ℚ) / (pd.companies.length : ℚ),
                      totalDemand skill sbc)
              else none
            else none)).take 5).map
        (fun q => SkInsight.competitiveSkill q.1 q.2.1 q.2.2) ++
      pd.companies.flatMap fun company =>
        match dget company sbc with
        | none => []
        | some company_skills =>
          (uniqueTop3 sbc company company_skills).map fun q =>
            SkInsight.uniqueSkill company q.1 q.2

/-! ## `generate_strategic_recommendations` (src/analyzer.py, lines 656-770)

Input insights are grouped by their `type` string; the constructors of
`SIn` are those type tags together with the fields this function reads
(`.other` stands for any unrecognized type, which contributes nothing).
Recommendation records carry the type tag, the hard-coded priority label,
and the type-specific fields (unused fields keep their defaults). -/

inductive SIn where
  | emergingSkill (skill : String)
  | geographicShift (region : String)
  | hiringSurge (company : String)
  | technologyFocus (category : String)
  | uniqueSkill (company skill : String)
  | leadershipChanges (company : String)
  | divergentStrategy (category top_company bottom_company : String)
  | other (t : String)
deriving DecidableEq

structure SRec where
  rtype : String
  priority : String
  skills : List String := []
  region : Option String := none
  companies : List String := []
  technology : Option String := none
  company : Option String := none
  skill : Option String := none
  category : Option String := none
deriving DecidableEq

/-- Keys of a Python `Counter` in first-insertion order. -/
def dedupFirst (l : List String) : List String := l.foldl insSet []

/-- `Counter(l).most_common(1)[0]`: the maximal count, earliest-inserted
key winning ties (`most_common` is a stable sort by count descending). -/
def mostCommon (l : List String) : Option (String × Nat) :=
  (dedupFirst l).foldl
    (fun best x =>
      match best with
      | none => some (x, l.count x)
      | some (b, bc) => if bc < l.count x then some (x, l.count x) else some (b, bc))
    none

/-- Emerging-skill block: top-3 skills, priority high. -/
def sBlockSkills (ins : List SIn) : List SRec :=
  let es := ins.filterMap fun i =>
    match i with
    | SIn.emergingSkill s => some s
    | _ => none
  if es ≠ [] then
    [{ rtype := "skill_investment", priority := "high", skills := es.take 3 }]
  else []

/-- Geographic-shift block: the most common region, if named twice. -/
def sBlockGeo (ins : List SIn) : List SRec :=
  let regions := ins.filterMap fun i =>
    match i with
    | SIn.geographicShift r => some r
    | _ => none
  match mostCommon regions with
  | some (top_region, cnt) =>
    if 2 ≤ cnt then
      [{ rtype := "geographic_expansion", priority := "medium", region := some top_region }]
    else []
  | none => []

/-- Hiring-surge block: top-3 surging companies, priority high. -/
def sBlockSurge (ins : List SIn) : List SRec :=
  let cs := ins.filterMap fun i =>
    match i with
    | SIn.hiringSurge c => some c
    | _ => none
  if cs ≠ [] then
    [{ rtype := "competitive_monitoring", priority := "high", companies := cs.take 3 }]
  else []

/-- Technology-focus block: the most common category, if named twice. -/
def sBlockTech (ins : List SIn) : List SRec :=
  let cats := ins.filterMap fun i =>
    match i with
    | SIn.technologyFocus c => some c
    | _ => none
  match mostCommon cats with
  | some (top_tech, cnt) =>
    if 2 ≤ cnt then
      [{ rtype := "technology_investment", priority := "high", technology := some top_tech }]
    else []
  | none => []

/-- Unique-skill block: the first unique-skill insight only. -/
def sBlockUnique (ins : List SIn) : List SRec :=
  match ins.filterMap fun i =>
    match i with
    | SIn.uniqueSkill c s => some (c, s)
    | _ => none with
  | (c, s) :: _ =>
    [{ rtype := "competitive_advantage", priority := "medium", company := some c,
       skill := some s }]
  | [] => []

/-- Leadership block: top-2 companies, priority medium. -/
def sBlockLead (ins : List SIn) : List SRec :=
  let cs := ins.filterMap fun i =>
    match i with
    | SIn.leadershipChanges c => some c
    | _ => none
  if cs ≠ [] then
    [{ rtype := "strategic_shift", priority := "medium", companies := cs.take 2 }]
  else []

/-- Divergent-strategy block: one recommendation per insight, for the FIRST
TWO divergent_strategy insights (`[:2]`). -/
def sBlockDiv (ins : List SIn) : List SRec :=
  ((ins.filterMap fun i =>
    match i with
    | SIn.divergentStrategy cat tc bc => some (cat, tc, bc)
    | _ => none).take 2).map fun d =>
      { rtype := "strategic_positioning", priority := "low", category := some d.1,
        companies := [d.2.1, d.2.2] }

/-- src/analyzer.py `generate_strategic_recommendations`: the seven blocks
in source order. -/
def generate_strategic_recommendations (insights : List SIn) : List SRec :=
  sBlockSkills insights ++ sBlockGeo insights ++ sBlockSurge insights ++
    sBlockTech insights ++ sBlockUnique insights ++ sBlockLead insights ++
    sBlockDiv insights

/-- The seven recognized recommendation types. -/
def recognizedTypes : List String :=
  ["skill_investment", "geographic_expansion", "competitive_monitoring",
   "technology_investment", "competitive_advantage", "strategic_shift",
   "strategic_positioning"]

/-- The hard-coded priority label of each recommendation type. -/
def fixedPriority (t : String) : String :=
  if t = "skill_investment" then "high"
  else if t = "geographic_expansion" then "medium"
  else if t = "competitive_monitoring" then "high"
  else if t = "technology_investment" then "high"
  else if t = "competitive_advantage" then "medium"
  else if t = "strategic_shift" then "medium"
  else "low"

/-! ## `analyze_industry_trends` (src/analyzer.py, lines 394-567)

Company metadata records are read with `.get`, so both the name and the
industry may be `None`; member lists therefore hold `Option String` and the
per-company dictionary reads go through `ogget`. -/

structure CompanyMeta where
  name : Option String
  industry : Option String
deriving DecidableEq

inductive IndInsight where
  | industryLeader (company : Option String) (industry : String) (velocity industry_avg : ℚ)
  | industrySkills (industry : String) (top_skills : List String)
  | industrySpecificSkill (industry : String) (skill : String)
  | industryHubs (industry : String) (top_locations : List String)
deriving DecidableEq

/-- The dict-of-lists append idiom: extend the list at `k` in place, or add
the key at the end. -/
def appendGroup (k : String) (v : Option String) :
    List (String × List (Option String)) → List (String × List (Option String))
  | [] => [(k, [v])]
  | (k2, l) :: t => if k = k2 then (k2, l ++ [v]) :: t else (k2, l) :: appendGroup k v t

/-- Group company names by their (present) industry label, in first-seen
order; companies without an industry are skipped. -/
def companiesByIndustry (cdata : List CompanyMeta) : List (String × List (Option String)) :=
  cdata.foldl
    (fun acc cm =>
      match cm.industry with
      | some ind => appendGroup ind cm.name acc
      | none => acc)
    []

/-- The member-name list the grouping produces for one industry label. -/
def industryMembers (i : String) (cdata : List CompanyMeta) : List (Option String) :=
  (cdata.filter fun cm => cm.industry = some i).map fun cm => cm.name

/-- Membership test of a possibly-`None` company name in a string list
(`None in list_of_str` is `False`). -/
def memComp (oc : Option String) (l : List String) : Bool :=
  match oc with
  | some c => l.contains c
  | none => false

/-- Dictionary read keyed by a possibly-`None` company name (a string-keyed
dict never holds `None`). -/
def ogget (oc : Option String) (m : List (String × α)) : Option α :=
  match oc with
  | some c => dget c m
  | none => none

/-- `data.get(company, 0)`. -/
def rowGet (oc : Option String) (row : List (String × Int)) : Int :=
  match ogget oc row with
  | some n => n
  | none => 0

/-- Per-member mean jobs per period, for the members that appear in the
global company list. -/
def industryVelocity (pd : AggData) (vd : List (List (String × Int)))
    (mcs : List (Option String)) : List (Option String × ℚ) :=
  mcs.foldl
    (fun acc oc =>
      if memComp oc pd.companies ∧ 0 < vd.length then
        dinsert oc (((vd.map fun row => rowGet oc row).sum : ℚ) / (vd.length : ℚ)) acc
      else acc)
    []

/-- Industry-leader analysis: members at ≥ 1.25 × the industry average,
highest first (stable sort), the top one reported. -/
def leaderPart (pd : AggData) (industry : String) (mcs : List (Option String)) :
    List IndInsight :=
  match pd.hiring_velocity with
  | none => []
  | some vd =>
    let iv := industryVelocity pd vd mcs
    if iv ≠ [] then
      let avg : ℚ := if 0 < iv.length then (iv.map fun p => p.2).sum / (iv.length : ℚ) else 0
      let above := iv.filter fun p => avg * 1.25 ≤ p.2
      if above ≠ [] then
        match sortGe (fun a b => decide (b.2 ≤ a.2)) above with
        | top :: _ => [IndInsight.industryLeader top.1 industry top.2 avg]
        | [] => []
      else []
    else []

/-- Sum of the members' skill tallies. -/
def industrySkillsMap (sbc : List (String × List (String × Int)))
    (mcs : List (Option String)) : List (String × Int) :=
  mcs.foldl
    (fun acc oc =>
      match ogget oc sbc with
      | some csk => csk.foldl (fun a q => bumpBy q.1 q.2 a) acc
      | none => acc)
    []

/-- `sum(1 for company in cos if company in sbc and skill in sbc[company])`. -/
def prevCount (skill : String) (cos : List (Option String))
    (sbc : List (String × List (String × Int))) : Nat :=
  (cos.filter fun oc =>
    match ogget oc sbc with
    | some m => (dget skill m).isSome
    | none => false).length

/-- Specificity comparator key: `float("inf")` when the other-industry
prevalence is zero is modelled as `none`, which sorts above every finite
value. -/
def ratioGe : Option ℚ → Option ℚ → Bool
  | none, _ => true
  | some _, none => false
  | some a, some b => decide (b ≤ a)

def ratioGe2 : Option ℚ → Bool
  | none => true
  | some r => decide (2 ≤ r)

/-- Industry skill analysis: top-5 in-demand skills, then the single most
industry-specific skill (prevalence ≥ 0.4 and specificity ≥ 2). -/
def skillsPart (pd : AggData) (industry : String) (mcs : List (Option String))
    (others : List (Option String)) : List IndInsight :=
  match pd.skills_by_company with
  | none => []
  | some sbc =>
    let ism := industrySkillsMap sbc mcs
    if ism ≠ [] then
      [IndInsight.industrySkills industry
        (((sortGe (fun a b => decide (b.2 ≤ a.2)) ism).take 5).map fun p => p.1)] ++
      (match sortGe (fun a b => ratioGe a.2.2 b.2.2)
          (ism.filterMap fun q =>
            let ip : ℚ :=
              if 0 < mcs.length then (prevCount q.1 mcs sbc : ℚ) / (mcs.length : ℚ) else 0
            let op : ℚ :=
              if 0 < others.length then (prevCount q.1 others sbc : ℚ) / (others.length : ℚ)
              else 0
            let rat : Option ℚ := if 0 < op then some (ip / max 0.01 op) else none
            if 0.4 ≤ ip ∧ ratioGe2 rat = true then some (q.1, ip, rat) else none) with
      | s :: _ => [IndInsight.industrySpecificSkill industry s.1]
      | [] => [])
    else []

/-- Industry hub analysis: top-3 locations by summed counts. -/
def hubsPart (pd : AggData) (industry : String) (mcs : List (Option String)) :
    List IndInsight :=
  match pd.locations_by_company with
  | none => []
  | some lbc =>
    let ilm := mcs.foldl
      (fun acc oc =>
        match ogget oc lbc with
        | some cl => cl.foldl (fun a q => bumpBy q.1 q.2 a) acc
        | none => acc)
      []
    if ilm ≠ [] then
      [IndInsight.industryHubs industry
        (((sortGe (fun a b => decide (b.2 ≤ a.2)) ilm).take 3).map fun p => p.1)]
    else []

/-- src/analyzer.py `analyze_industry_trends`: group by industry; every
grouped industry gets an entry, initialised to `[]`, and industries with
fewer than two member companies are skipped before any analysis runs. -/
def analyze_industry_trends (pd : AggData) (companies_data : List CompanyMeta) :
    List (String × List IndInsight) :=
  (companiesByIndustry companies_data).map fun g =>
    (g.1,
      if g.2.length < 2 then []
      else
        leaderPart pd g.1 g.2 ++
        skillsPart pd g.1 g.2
          (((companiesByIndustry companies_data).filter fun h => h.1 ≠ g.1).flatMap
            fun h => h.2) ++
        hubsPart pd g.1 g.2)

/-! ## Concrete inputs used by witnesses -/

/-- Metadata with a single company in industry `"Fintech"`. -/
def c9meta : List CompanyMeta := [{ name := some "Solo", industry := some "Fintech" }]

/-- An empty aggregated-data value. -/
def emptyAgg : AggData :=
  { companies := []
    hiring_velocity := none
    roles_by_company := none
    locations_by_company := none
    skills_by_company := none }

/-- Two divergent_strategy insights: the source emits one
strategic_positioning recommendation for each of the first two. -/
def c8cex : List SIn :=
  [SIn.divergentStrategy "Data" "TopCo" "BottomCo",
   SIn.divergentStrategy "Sales" "EastCo" "WestCo"]

/-- Two companies; `"Haskell"` is listed only by `"A"`, with count 3. -/
def c6sbc : List (String × List (String × Int)) :=
  [("A", [("Haskell", 3)]), ("B", [("Python", 1)])]

def c6pd : AggData :=
  { companies := ["A", "B"]
    hiring_velocity := none
    roles_by_company := none
    locations_by_company := none
    skills_by_company := some c6sbc }

/-- A company whose single location text matches the keyword lists of two
regions: `"US"` (North America, tested first) and `"Germany"` (Europe). -/
def c7pd : AggData :=
  { companies := ["Acme"]
    hiring_velocity := none
    roles_by_company := none
    locations_by_company := some [("Acme", [("US Germany", 3)])]
    skills_by_company := none }

/-- Two velocity rows: earlier-half sum 10, recent-half sum 14 for `"A"`. -/
def c2rows : List (List (String × Int)) := [[("A", 10)], [("A", 14)]]

def c2pd : AggData :=
  { companies := ["A"]
    hiring_velocity := some c2rows
    roles_by_company := none
    locations_by_company := none
    skills_by_company := none }

/-- A one-company, one-listing well-formed input; the listing date uses the
ANSI-C space-padded day form, which `strptime("%Y-%m-%d")` accepts. -/
def wJL : List (String × List Job) :=
  [("A", [{ title := some "Engineer", location := some "NYC", requirements := [],
            date := some "2024-01- 5", salary_range := none }])]

/-- The 30-day window strings used by the `wJL` witness (one day shown). -/
def wDR : List String := ["2024-01-05"]

/-- The per-company data `processCompanies` derives from `wJL` over `wDR`. -/
def wCDS : List (String × Nat × CompanyData) :=
  [("A", 1,
    { roles := [("Engineer", 1)], locations := [("NYC", 1)], skills := [],
      time_series := [("2024-01-05", 1)], salary_ranges := [], titles := ["Engineer"],
      locs := ["NYC"], skl := [] })]

/-- A listing whose date string is not of the `%Y-%m-%d` form (`%Y` needs
exactly four digits), so `strptime` raises. -/
def badDateJL : List (String × List Job) :=
  [("Beta", [{ title := some "Analyst", location := some "Berlin", requirements := [],
               date := some "24-1-1", salary_range := none }])]

/-! ## Dictionary and set lemmas -/

theorem dget_dinsert_self [DecidableEq κ] (k : κ) (v : α) (l : List (κ × α)) :
    dget k (dinsert k v l) = some v := by
  induction l with
  | nil => simp [dinsert, dget]
  | cons p t ih =>
    obtain ⟨k2, v2⟩ := p
    by_cases h : k = k2
    · subst h; simp [dinsert, dget]
    · simp [dinsert, dget, h, ih]

theorem dget_dinsert_ne [DecidableEq κ] {k k2 : κ} (h : k ≠ k2) (v : α) (l : List (κ × α)) :
    dget k (dinsert k2 v l) = dget k l := by
  induction l with
  | nil => simp [dinsert, dget, h]
  | cons p t ih =>
    obtain ⟨k3, v3⟩ := p
    by_cases h2 : k2 = k3
    · subst h2; simp [dinsert, dget, h]
    · by_cases h3 : k = k3 <;> simp [dinsert, dget, h2, h3, ih]

theorem dget_fold_dinsert_keep (f : String → α) (l : List String)
    (acc : List (String × α)) (c : String) (hc : dget c acc = some (f c)) :
    dget c (l.foldl (fun a x => dinsert x (f x) a) acc) = some (f c) := by
  induction l generalizing acc with
  | nil => exact hc
  | cons x t ih =>
    rw [List.foldl_cons]
    apply ih
    by_cases h : c = x
    · subst h; rw [dget_dinsert_self]
    · rw [dget_dinsert_ne h]; exact hc

theorem dget_fold_dinsert (f : String → α) (l : List String)
    (acc : List (String × α)) (c : String) (hc : c ∈ l) :
    dget c (l.foldl (fun a x => dinsert x (f x) a) acc) = some (f c) := by
  induction l generalizing acc with
  | nil => cases hc
  | cons x t ih =>
    rw [List.foldl_cons]
    rcases List.mem_cons.mp hc with rfl | hmem
    · exact dget_fold_dinsert_keep f t _ c (dget_dinsert_self c (f c) acc)
    · exact ih _ hmem

theorem dget_fold_pairs_not_mem [DecidableEq κ] (l : List (κ × α))
    (acc : List (κ × α)) (c : κ) (h : c ∉ l.map Prod.fst) :
    dget c (l.foldl (fun a x => dinsert x.1 x.2 a) acc) = dget c acc := by
  induction l generalizing acc with
  | nil => rfl
  | cons x t ih =>
    rw [List.foldl_cons]
    have hne : c ≠ x.1 := fun hEq => h (by simp [hEq])
    rw [ih _ (fun hm => h (by simp [hm]))]
    exact dget_dinsert_ne hne x.2 acc

theorem dget_fold_pairs_acc [DecidableEq κ] {l : List (κ × α)}
    (hnd : (l.map Prod.fst).Nodup) {c : κ} {v : α} (h : (c, v) ∈ l)
    (acc : List (κ × α)) :
    dget c (l.foldl (fun a x => dinsert x.1 x.2 a) acc) = some v := by
  induction l generalizing acc with
  | nil => cases h
  | cons x t ih =>
    rw [List.foldl_cons]
    rcases List.mem_cons.mp h with rfl | hmem
    · have hcm : (c : κ) ∉ t.map Prod.fst := by
        simpa using (List.nodup_cons.mp hnd).1
      rw [dget_fold_pairs_not_mem t _ c hcm]
      exact dget_dinsert_self c v acc
    · exact ih (List.nodup_cons.mp hnd).2 hmem _

theorem dget_map_entry (key : β → String) (f : β → α) {cds : List β}
    (hnd : (cds.map key).Nodup) {e : β} (he : e ∈ cds) :
    dget (key e) (cds.map fun y => (key y, f y)) = some (f e) := by
  induction cds with
  | nil => cases he
  | cons y t ih =>
    rcases List.mem_cons.mp he with rfl | he2
    · simp [dget]
    · have hne : key e ≠ key y := by
        intro hEq
        exact (List.nodup_cons.mp hnd).1 (hEq ▸ List.mem_map_of_mem key he2)
      simp only [List.map_cons, dget, if_neg hne]
      exact ih (List.nodup_cons.mp hnd).2 he2

theorem dget_bump_self (k : String) (m : List (String × Nat)) :
    dget k (bump k m) = some ((dget k m).getD 0 + 1) := by
  induction m with
  | nil => simp [bump, dget]
  | cons p t ih =>
    obtain ⟨k2, v2⟩ := p
    by_cases h : k = k2
    · subst h; simp [bump, dget]
    · simp [bump, dget, h, ih]

theorem dget_bump_ne {k k2 : String} (h : k ≠ k2) (m : List (String × Nat)) :
    dget k (bump k2 m) = dget k m := by
  induction m with
  | nil => simp [bump, dget, h]
  | cons p t ih =>
    obtain ⟨k3, v3⟩ := p
    by_cases h2 : k2 = k3
    · subst h2; simp [bump, dget, h]
    · by_cases h3 : k = k3 <;> simp [bump, dget, h2, h3, ih]

theorem dget_fold_bump (l : List String) (k : String) (acc : List (String × Nat)) :
    dget k (l.foldl (fun a r => bump r a) acc) =
      if k ∈ l ∨ (dget k acc).isSome then some ((dget k acc).getD 0 + l.count k) else none := by
  induction l generalizing acc with
  | nil =>
    cases h : dget k acc <;> simp [h]
  | cons r t ih =>
    rw [List.foldl_cons, ih]
    by_cases hkr : k = r
    · subst hkr
      rw [dget_bump_self]
      cases h : dget k acc <;>
        simp [h, List.count_cons_self, Nat.add_assoc, Nat.add_comm 1]
    · rw [dget_bump_ne hkr]
      have : (r :: t).count k = t.count k := by
        simp [List.count_cons, hkr]
      simp [this, List.mem_cons, hkr]

theorem dget_buildCounts (l : List String) (k : String) :
    dget k (buildCounts l) = if k ∈ l then some (l.count k) else none := by
  have h := dget_fold_bump l k []
  simpa [buildCounts, dget] using h

theorem lookupCount_eq {c : String} {m : List (String × List (String × Nat))}
    {locs : List String} (k : String) (h : dget c m = some (buildCounts locs)) :
    lookupCount c m k = locs.count k := by
  simp only [lookupCount, h, dget_buildCounts]
  split_ifs with hm
  · rfl
  · simpa using (List.count_eq_zero.mpr hm).symm

theorem dget_distRow (label lv : String) (companies : List String)
    (get : String → Nat) {c : String} (hc : c ∈ companies) :
    dget c (distRow label lv companies get) = some (Val.intv (get c)) :=
  dget_fold_dinsert (fun x => Val.intv (get x)) companies _ c hc

theorem insSet_nodup {l : List String} (x : String) (h : l.Nodup) :
    (insSet l x).Nodup := by
  rw [insSet]
  split_ifs with hm
  · exact h
  · simp [List.nodup_append, h, hm]

theorem mem_insSet_self (l : List String) (x : String) : x ∈ insSet l x := by
  rw [insSet]; split_ifs with hm
  · exact hm
  · simp

theorem mem_insSet_of_mem {l : List String} {y : String} (x : String) (h : y ∈ l) :
    y ∈ insSet l x := by
  rw [insSet]; split_ifs with hm
  · exact h
  · simp [h]

theorem fold_insSet_nodup (l : List String) {acc : List String} (h : acc.Nodup) :
    (l.foldl insSet acc).Nodup := by
  induction l generalizing acc with
  | nil => exact h
  | cons x t ih => exact ih (insSet_nodup x h)

theorem mem_fold_insSet_of_acc (l : List String) {acc : List String} {y : String}
    (h : y ∈ acc) : y ∈ l.foldl insSet acc := by
  induction l generalizing acc with
  | nil => exact h
  | cons x t ih => exact ih (mem_insSet_of_mem x h)

theorem mem_fold_insSet_of_mem {l : List String} (acc : List String) {y : String}
    (h : y ∈ l) : y ∈ l.foldl insSet acc := by
  induction l generalizing acc with
  | nil => cases h
  | cons x t ih =>
    rcases List.mem_cons.mp h with rfl | h2
    · exact mem_fold_insSet_of_acc t (mem_insSet_self acc y)
    · exact ih _ h2

theorem nodup_foldl_union (g : β → List String) (cds : List β)
    {acc : List String} (h : acc.Nodup) :
    (cds.foldl (fun a x => (g x).foldl insSet a) acc).Nodup := by
  induction cds generalizing acc with
  | nil => exact h
  | cons x t ih => exact ih (fold_insSet_nodup (g x) h)

theorem mem_foldl_union_acc (g : β → List String) (cds : List β)
    {acc : List String} {y : String} (h : y ∈ acc) :
    y ∈ cds.foldl (fun a x => (g x).foldl insSet a) acc := by
  induction cds generalizing acc with
  | nil => exact h
  | cons x t ih => exact ih (mem_fold_insSet_of_acc (g x) h)

theorem mem_foldl_union (g : β → List String) {cds : List β} (acc : List String)
    {x : β} {y : String} (hx : x ∈ cds) (hy : y ∈ g x) :
    y ∈ cds.foldl (fun a z => (g z).foldl insSet a) acc := by
  induction cds generalizing acc with
  | nil => cases hx
  | cons z t ih =>
    rcases List.mem_cons.mp hx with rfl | hx2
    · exact mem_foldl_union_acc g t (mem_fold_insSet_of_mem acc hy)
    · exact ih _ hx2

theorem sum_counts {al lc : List String} (hnd : al.Nodup) (hsub : ∀ x ∈ lc, x ∈ al) :
    (al.map fun x => lc.count x).sum = lc.length := by
  rw [← List.sum_toFinset _ hnd]
  rw [← List.sum_toFinset_count_eq_length lc]
  apply (Finset.sum_subset ?_ ?_).symm
  · intro x hx
    rw [List.mem_toFinset] at hx ⊢
    exact hsub x hx
  · intro x _ hx
    rw [List.mem_toFinset] at hx
    exact List.count_eq_zero.mpr hx

/-! ## Structure of successful processing -/

theorem getAll_length (f : Job → Option α) :
    ∀ {l : List Job} {xs : List α}, getAll f l = some xs → xs.length = l.length := by
  intro l
  induction l with
  | nil => intro xs h; simp [getAll] at h; simp [← h]
  | cons j t ih =>
    intro xs h
    rw [getAll] at h
    cases h1 : f j with
    | none => rw [h1] at h; cases h
    | some x =>
      cases h2 : getAll f t with
      | none => rw [h1, h2] at h; cases h
      | some rest =>
        rw [h1, h2] at h
        cases h
        simp [ih h2]

theorem processCompany_parts {dr : List String} {ls : List Job} {cd : CompanyData}
    (h : processCompany dr ls = some cd) :
    ∃ titles locs, getAll (fun j => j.title) ls = some titles ∧
      getAll (fun j => j.location) ls = some locs ∧
      cd.roles = buildCounts titles ∧ cd.locations = buildCounts locs ∧
      cd.titles = titles ∧ cd.locs = locs ∧
      titles.length = ls.length ∧ locs.length = ls.length := by
  rw [processCompany] at h
  cases h1 : getAll (fun j => j.title) ls with
  | none => rw [h1] at h; cases h
  | some titles =>
    cases h2 : getAll (fun j => j.location) ls with
    | none => rw [h1, h2] at h; cases h
    | some locs =>
      cases h3 : getDates ls with
      | none => rw [h1, h2, h3] at h; cases h
      | some dates =>
        rw [h1, h2, h3] at h
        cases h
        exact ⟨titles, locs, rfl, rfl, rfl, rfl, rfl, rfl,
          getAll_length _ h1, getAll_length _ h2⟩

theorem processCompanies_fst (dr : List String) :
    ∀ {jl : List (String × List Job)} {cds : List (String × Nat × CompanyData)},
      processCompanies dr jl = some cds →
      cds.map (fun x => x.1) = jl.map Prod.fst := by
  intro jl
  induction jl with
  | nil => intro cds h; simp [processCompanies] at h; simp [← h]
  | cons p t ih =>
    intro cds h
    obtain ⟨c, ls⟩ := p
    rw [processCompanies] at h
    cases h1 : processCompany dr ls with
    | none => rw [h1] at h; cases h
    | some cd =>
      cases h2 : processCompanies dr t with
      | none => rw [h1, h2] at h; cases h
      | some rest =>
        rw [h1, h2] at h
        cases h
        simp [ih h2]

theorem processCompanies_mem (dr : List String) :
    ∀ {jl : List (String × List Job)} {cds : List (String × Nat × CompanyData)},
      processCompanies dr jl = some cds →
      ∀ {x : String × Nat × CompanyData}, x ∈ cds →
        ∃ ls, (x.1, ls) ∈ jl ∧ x.2.1 = ls.length ∧ processCompany dr ls = some x.2.2 := by
  intro jl
  induction jl with
  | nil => intro cds h x hx; simp [processCompanies] at h; subst h; cases hx
  | cons p t ih =>
    intro cds h x hx
    obtain ⟨c, ls⟩ := p
    rw [processCompanies] at h
    cases h1 : processCompany dr ls with
    | none => rw [h1] at h; cases h
    | some cd =>
      cases h2 : processCompanies dr t with
      | none => rw [h1, h2] at h; cases h
      | some rest =>
        rw [h1, h2] at h
        cases h
        rcases List.mem_cons.mp hx with rfl | hx2
        · exact ⟨ls, List.mem_cons_self _ _, rfl, h1⟩
        · obtain ⟨ls2, hmem, hlen, hpc⟩ := ih h2 hx2
          exact ⟨ls2, List.mem_cons_of_mem _ hmem, hlen, hpc⟩

/-! ## Claims C3, C10, C4 -/

/-- C3: `extract_salary_range` maps `"$80K - $120K"` to `(80.0, 120.0)`,
maps `"$80,000 - $120,000"` to `(80.0, 120.0)` after division by 1000, and
returns `(None, None)` for every string the regex does not match (the
function is total, so it never raises). -/
theorem extract_salary_range_spec :
    extract_salary_range "$80K - $120K" = (some 80, some 120) ∧
    extract_salary_range "$80,000 - $120,000" = (some 80, some 120) ∧
    ∀ s : String, reSearch s.data = none → extract_salary_range s = (none, none) := by
  refine ⟨by decide, ?_, ?_⟩
  · have h : reSearch "$80,000 - $120,000".data = some ("80,000".data, "120,000".data) := by
      decide
    have h1 : digitsToNat ['8', '0', '0', '0', '0'] = 80000 := by decide
    have h2 : digitsToNat ['1', '2', '0', '0', '0', '0'] = 120000 := by decide
    simp [extract_salary_range, h, h1, h2]
    norm_num
  · intro s h
    simp [extract_salary_range, h]

/-- Witness for C3: `"Competitive salary"` does not match the regex and
yields `(None, None)`. -/
theorem extract_salary_range_spec_witness :
    reSearch "Competitive salary".data = none ∧
    extract_salary_range "Competitive salary" = (none, none) :=
  ⟨by decide, extract_salary_range_spec.2.2 "Competitive salary" (by decide)⟩

/-- C10: the divide-by-1000 normalization fires iff the input has no `K`
character and the parsed minimum exceeds 1000; the maximum is never tested,
so `"$900 - $120,000"` yields `(900.0, 120000.0)` with the maximum left
unnormalized. -/
theorem extract_salary_range_min_tested_only :
    extract_salary_range "$900 - $120,000" = (some 900, some 120000) ∧
    ∀ s g1 g2, reSearch s.data = some (g1, g2) →
      (('K' ∉ s.data ∧ 1000 < (digitsToNat (g1.filter fun c => c ≠ ',') : ℚ)) →
        extract_salary_range s =
          (some ((digitsToNat (g1.filter fun c => c ≠ ',') : ℚ) / 1000),
           some ((digitsToNat (g2.filter fun c => c ≠ ',') : ℚ) / 1000))) ∧
      (('K' ∈ s.data ∨ (digitsToNat (g1.filter fun c => c ≠ ',') : ℚ) ≤ 1000) →
        extract_salary_range s =
          (some (digitsToNat (g1.filter fun c => c ≠ ',') : ℚ),
           some (digitsToNat (g2.filter fun c => c ≠ ',') : ℚ))) := by
  refine ⟨by decide, ?_⟩
  intro s g1 g2 h
  constructor
  · intro hc
    simp only [extract_salary_range, h]
    rw [if_pos hc]
  · intro hc
    have hneg : ¬ ('K' ∉ s.data ∧ 1000 < (digitsToNat (g1.filter fun c => c ≠ ',') : ℚ)) := by
      rcases hc with hk | hle
      · exact fun hand => hand.1 hk
      · exact fun hand => absurd hand.2 (not_lt.mpr hle)
    simp only [extract_salary_range, h]
    rw [if_neg hneg]

/-- Witness for C10: both branches exercised at concrete inputs — the
minimum-at-most-1000 branch leaves `120000` unnormalized, and the
normalizing branch divides both values. -/
theorem extract_salary_range_min_tested_only_witness :
    reSearch "$900 - $120,000".data = some ("900".data, "120,000".data) ∧
    extract_salary_range "$900 - $120,000" = (some 900, some 120000) ∧
    extract_salary_range "$80,000 - $120,000" = (some 80, some 120) := by
  refine ⟨by decide, ?_, ?_⟩
  · have h := (extract_salary_range_min_tested_only.2 "$900 - $120,000"
      "900".data "120,000".data (by decide)).2 (by right; decide)
    rw [h]
    norm_num
    decide
  · have h := (extract_salary_range_min_tested_only.2 "$80,000 - $120,000"
      "80,000".data "120,000".data (by decide)).1 (by constructor <;> decide)
    rw [h]
    have h1 : digitsToNat (List.filter (fun c => c ≠ ',') "80,000".data) = 80000 := by decide
    have h2 : digitsToNat (List.filter (fun c => c ≠ ',') "120,000".data) = 120000 := by decide
    rw [h1, h2]
    norm_num

/-- C4 (on the code as written): the trailing `\b` of `\bC\+\+\b` requires a
word character after the final `+`, so the keywords `C++` and `C#` can never
be matched — not even by a text that is exactly the keyword — while keywords
ending in a word character behave as specified. -/
theorem extract_skills_cpp_unmatchable :
    extract_skills_from_text "C++" = [] ∧
    extract_skills_from_text "uses C++ daily" = [] ∧
    extract_skills_from_text "C#" = [] ∧
    extract_skills_from_text "Python" = ["Python"] :=
  ⟨by decide, by decide, by decide, by decide⟩

/-! ## Claim C1 -/

/-- C1: whenever any of the fallible steps of `process_job_data` raises, the
function returns exactly the minimal skeleton: the input company names, the
raw listing counts, all five derived maps empty (and none of the `all_*`
keys). -/
theorem process_job_data_degrades (dateRange : List String)
    (jl : List (String × List Job)) (h : processCompanies dateRange jl = none) :
    process_job_data dateRange jl =
      { companies := jl.map fun x => x.1
        job_counts := jl.map fun x => x.2.length
        roles := []
        locations := []
        skills := []
        time_series := []
        salary_ranges := []
        all_roles := none
        all_locations := none
        all_skills := none } := by
  rw [process_job_data, h]

/-- Witness for C1: a listing with no `"title"` key makes processing raise,
as does a listing whose date string `"24-1-1"` is not of the `%Y-%m-%d`
form; both inputs yield exactly the skeleton. -/
theorem process_job_data_degrades_witness :
    (processCompanies []
      [("Acme", [{ title := none, location := some "NYC", requirements := [],
                   date := none, salary_range := none }])] = none ∧
    process_job_data []
      [("Acme", [{ title := none, location := some "NYC", requirements := [],
                   date := none, salary_range := none }])] =
      { companies := ["Acme"], job_counts := [1], roles := [], locations := []
        skills := [], time_series := [], salary_ranges := []
        all_roles := none, all_locations := none, all_skills := none }) ∧
    (processCompanies [] badDateJL = none ∧
    process_job_data [] badDateJL =
      { companies := ["Beta"], job_counts := [1], roles := [], locations := []
        skills := [], time_series := [], salary_ranges := []
        all_roles := none, all_locations := none, all_skills := none }) := by
  refine ⟨⟨by decide, ?_⟩, by decide, ?_⟩
  · exact process_job_data_degrades [] _ (by decide)
  · exact process_job_data_degrades [] badDateJL (by decide)

/-! ## Claim C5 -/

/-- Per-entry shape of a successfully processed company: its role and
location maps are the tallies of its title and location sequences, whose
lengths are the company's raw job count. -/
theorem processed_entry_facts {dr : List String} {jl : List (String × List Job)}
    {cds : List (String × Nat × CompanyData)}
    (h : processCompanies dr jl = some cds) :
    ∀ z ∈ cds, z.2.2.roles = buildCounts z.2.2.titles ∧
      z.2.2.locations = buildCounts z.2.2.locs ∧
      z.2.2.titles.length = z.2.1 ∧ z.2.2.locs.length = z.2.1 := by
  intro z hz
  obtain ⟨ls, _, hlen, hpc⟩ := processCompanies_mem dr h hz
  obtain ⟨titles, locs, _, _, hroles, hlocs, htitles, hlocsEq, hTlen, hLlen⟩ :=
    processCompany_parts hpc
  refine ⟨by rw [hroles, htitles], by rw [hlocs, hlocsEq], ?_, ?_⟩
  · rw [htitles, hTlen, hlen]
  · rw [hlocsEq, hLlen, hlen]

/-- Column sum of one company over a zero-filled distribution table built
from per-company tallies: it recovers the length of that company's raw
occurrence sequence. -/
theorem colSum_distTable (cds : List (String × Nat × CompanyData)) (label : String)
    (proj : CompanyData → List (String × Nat)) (seq : CompanyData → List String)
    (hbc : ∀ z ∈ cds, proj z.2.2 = buildCounts (seq z.2.2))
    (hknd : (cds.map fun y => y.1).Nodup)
    {e : String × Nat × CompanyData} (he : e ∈ cds) :
    colSum e.1 ((cds.foldl (fun acc z => (seq z.2.2).foldl insSet acc) []).map fun lv =>
        distRow label lv (cds.map fun y => y.1)
          fun c => lookupCount c (cds.map fun y => (y.1, proj y.2.2)) lv) =
      (seq e.2.2).length := by
  rw [colSum, List.map_map]
  have hget : dget e.1 (cds.map fun y => (y.1, proj y.2.2)) = some (proj e.2.2) :=
    dget_map_entry (fun y => y.1) (fun y => proj y.2.2) hknd he
  have hcmem : e.1 ∈ cds.map fun y => y.1 := List.mem_map_of_mem _ he
  have hcong : ∀ lv ∈ cds.foldl (fun acc z => (seq z.2.2).foldl insSet acc) [],
      ((fun row => valInt (dget e.1 row)) ∘ fun lv =>
        distRow label lv (cds.map fun y => y.1)
          fun c => lookupCount c (cds.map fun y => (y.1, proj y.2.2)) lv) lv =
      (seq e.2.2).count lv := by
    intro lv _
    show valInt (dget e.1 (distRow label lv _ _)) = _
    rw [dget_distRow _ _ _ _ hcmem]
    show lookupCount e.1 (cds.map fun y => (y.1, proj y.2.2)) lv = _
    exact lookupCount_eq lv (by rw [hget, hbc e he])
  rw [List.map_congr_left hcong]
  exact sum_counts (nodup_foldl_union (fun z => seq z.2.2) cds List.nodup_nil)
    (fun y hy => mem_foldl_union (fun z => seq z.2.2) [] he hy)

/-- C5: for well-formed input on which `process_job_data` does not degrade
(and no company literally named `"location"` or `"role"`), every row of the
location- and role-distribution tables carries an integer cell for every
company, and each company's column sum over either table equals its raw job
count recorded in `total_jobs_by_company`. -/
theorem aggregate_rectangular (dateRange : List String) (jl : List (String × List Job))
    (cds : List (String × Nat × CompanyData))
    (hok : processCompanies dateRange jl = some cds)
    (hnd : (jl.map Prod.fst).Nodup)
    (hploc : "location" ∉ jl.map Prod.fst) (hprole : "role" ∉ jl.map Prod.fst) :
    (∀ row ∈ (aggregate_job_data (process_job_data dateRange jl)).location_distribution,
      ∀ c ∈ (process_job_data dateRange jl).companies, ∃ n, dget c row = some (Val.intv n)) ∧
    (∀ row ∈ (aggregate_job_data (process_job_data dateRange jl)).role_distribution,
      ∀ c ∈ (process_job_data dateRange jl).companies, ∃ n, dget c row = some (Val.intv n)) ∧
    (∀ c ∈ (process_job_data dateRange jl).companies,
      dget c (aggregate_job_data (process_job_data dateRange jl)).total_jobs_by_company =
        some (colSum c (aggregate_job_data (process_job_data dateRange jl)).location_distribution)) ∧
    (∀ c ∈ (process_job_data dateRange jl).companies,
      dget c (aggregate_job_data (process_job_data dateRange jl)).total_jobs_by_company =
        some (colSum c (aggregate_job_data (process_job_data dateRange jl)).role_distribution)) := by
  have hp : process_job_data dateRange jl = assemble cds := by
    rw [process_job_data, hok]
  rw [hp]
  have hkeys : cds.map (fun x => x.1) = jl.map Prod.fst := processCompanies_fst dateRange hok
  have hknd : (cds.map (fun x => x.1)).Nodup := hkeys ▸ hnd
  have hfacts := processed_entry_facts hok
  cases cds with
  | nil =>
    refine ⟨?_, ?_, ?_, ?_⟩ <;> simp [assemble, aggregate_job_data, aggregateCore]
  | cons x rest =>
    have hcomp : (assemble (x :: rest)).companies = (x :: rest).map fun y => y.1 := rfl
    have hLD : (aggregate_job_data (assemble (x :: rest))).location_distribution =
        ((x :: rest).foldl (fun acc z => z.2.2.locs.foldl insSet acc) []).map (fun lv =>
          distRow "location" lv ((x :: rest).map fun y => y.1)
            fun c => lookupCount c ((x :: rest).map fun y => (y.1, y.2.2.locations)) lv) := rfl
    have hRD : (aggregate_job_data (assemble (x :: rest))).role_distribution =
        ((x :: rest).foldl (fun acc z => z.2.2.titles.foldl insSet acc) []).map (fun lv =>
          distRow "role" lv ((x :: rest).map fun y => y.1)
            fun c => lookupCount c ((x :: rest).map fun y => (y.1, y.2.2.roles)) lv) := rfl
    have hTJ : (aggregate_job_data (assemble (x :: rest))).total_jobs_by_company =
        ((x :: rest).map fun y => (y.1, y.2.1)).foldl (fun a z => dinsert z.1 z.2 a) [] := by
      show (((x :: rest).map fun y => y.1).zip ((x :: rest).map fun y => y.2.1)).foldl
          (fun a z => dinsert z.1 z.2 a) [] = _
      rw [List.zip_map']
    refine ⟨?_, ?_, ?_, ?_⟩
    · intro row hrow c hcmem
      rw [hLD] at hrow
      obtain ⟨lv, _, hrw⟩ := List.mem_map.mp hrow
      subst hrw
      exact ⟨_, dget_distRow _ _ _ _ hcmem⟩
    · intro row hrow c hcmem
      rw [hRD] at hrow
      obtain ⟨lv, _, hrw⟩ := List.mem_map.mp hrow
      subst hrw
      exact ⟨_, dget_distRow _ _ _ _ hcmem⟩
    · intro c hcmem
      obtain ⟨e, he, hec⟩ := List.mem_map.mp (show c ∈ (x :: rest).map (fun y => y.1) from hcmem)
      subst hec
      have htj : dget e.1 ((aggregate_job_data (assemble (x :: rest))).total_jobs_by_company) =
          some e.2.1 := by
        rw [hTJ]
        apply dget_fold_pairs_acc (by simpa using hknd)
        simpa using List.mem_map_of_mem (fun y => (y.1, y.2.1)) he
      rw [htj, hLD]
      rw [colSum_distTable (x :: rest) "location" (fun cd => cd.locations) (fun cd => cd.locs)
        (fun z hz => ((hfacts z hz).2.1)) hknd he]
      rw [(hfacts e he).2.2.2]
    · intro c hcmem
      obtain ⟨e, he, hec⟩ := List.mem_map.mp (show c ∈ (x :: rest).map (fun y => y.1) from hcmem)
      subst hec
      have htj : dget e.1 ((aggregate_job_data (assemble (x :: rest))).total_jobs_by_company) =
          some e.2.1 := by
        rw [hTJ]
        apply dget_fold_pairs_acc (by simpa using hknd)
        simpa using List.mem_map_of_mem (fun y => (y.1, y.2.1)) he
      rw [htj, hRD]
      rw [colSum_distTable (x :: rest) "role" (fun cd => cd.roles) (fun cd => cd.titles)
        (fun z hz => ((hfacts z hz).1)) hknd he]
      rw [(hfacts e he).2.2.1]

/-- Witness for C5: the one-company input `wJL` (whose listing date uses
the space-padded day form `strptime` accepts) processes successfully — no
degradation — and its column sum matches its total job count. -/
theorem aggregate_rectangular_witness :
    (processCompanies wDR wJL = some wCDS ∧ (wJL.map Prod.fst).Nodup ∧
      "location" ∉ wJL.map Prod.fst ∧ "role" ∉ wJL.map Prod.fst) ∧
    dget "A" (aggregate_job_data (process_job_data wDR wJL)).total_jobs_by_company =
      some (colSum "A" (aggregate_job_data (process_job_data wDR wJL)).location_distribution) := by
  refine ⟨⟨by decide, by decide, by decide, by decide⟩, ?_⟩
  exact (aggregate_rectangular wDR wJL wCDS (by decide) (by decide) (by decide)
    (by decide)).2.2.1 "A" (by decide)

/-! ## Section-shape lemmas for `analyze_hiring_trends` -/

theorem velocitySection_shape (companies : List String)
    (vd : Option (List (List (String × Int)))) :
    ∀ x ∈ velocitySection companies vd, isVelocityIns x = true := by
  intro x hx
  cases vd with
  | none => exact absurd hx (List.not_mem_nil x)
  | some rows =>
    simp only [velocitySection] at hx
    obtain ⟨c, _, hx2⟩ := List.mem_flatMap.mp hx
    split_ifs at hx2 <;>
      first
        | (rw [List.mem_singleton] at hx2; subst hx2; rfl)
        | exact absurd hx2 (List.not_mem_nil x)

theorem roleSection_shape (rbc : Option (List (String × List (String × Int)))) :
    ∀ x ∈ roleSection rbc, isRoleIns x = true := by
  intro x hx
  cases rbc with
  | none => exact absurd hx (List.not_mem_nil x)
  | some l =>
    simp only [roleSection] at hx
    obtain ⟨p, _, hx2⟩ := List.mem_flatMap.mp hx
    rcases List.mem_append.mp hx2 with h1 | h2
    · split_ifs at h1
      · rw [List.mem_singleton] at h1; subst h1; rfl
      · exact absurd h1 (List.not_mem_nil x)
    · obtain ⟨cat, _, h3⟩ := List.mem_flatMap.mp h2
      split_ifs at h3
      · rw [List.mem_singleton] at h3; subst h3; rfl
      · exact absurd h3 (List.not_mem_nil x)

theorem locationSection_shape (lbc : Option (List (String × List (String × Int)))) :
    ∀ x ∈ locationSection lbc, isLocIns x = true := by
  intro x hx
  cases lbc with
  | none => exact absurd hx (List.not_mem_nil x)
  | some l =>
    simp only [locationSection] at hx
    obtain ⟨p, _, hx2⟩ := List.mem_flatMap.mp hx
    rcases List.mem_append.mp hx2 with h1 | h2
    · simp only [remotePart] at h1
      split_ifs at h1 <;>
        first
          | (rw [List.mem_singleton] at h1; subst h1; rfl)
          | exact absurd h1 (List.not_mem_nil x)
    · simp only [regionPart] at h2
      obtain ⟨rg, _, h3⟩ := List.mem_flatMap.mp h2
      split_ifs at h3
      · rw [List.mem_singleton] at h3; subst h3; rfl
      · exact absurd h3 (List.not_mem_nil x)

theorem not_role_of_velocity {x : TrInsight} (h : isVelocityIns x = true) :
    isRoleIns x = false := by
  cases x <;> simp_all [isVelocityIns, isRoleIns]

theorem not_loc_of_velocity {x : TrInsight} (h : isVelocityIns x = true) :
    isLocIns x = false := by
  cases x <;> simp_all [isVelocityIns, isLocIns]

theorem not_velocity_of_loc {x : TrInsight} (h : isLocIns x = true) :
    isVelocityIns x = false := by
  cases x <;> simp_all [isVelocityIns, isLocIns]

theorem not_role_of_loc {x : TrInsight} (h : isLocIns x = true) :
    isRoleIns x = false := by
  cases x <;> simp_all [isRoleIns, isLocIns]

theorem mem_analyze_velocity (pd : AggData) {x : TrInsight}
    (hx : isVelocityIns x = true) :
    x ∈ analyze_hiring_trends pd ↔ x ∈ velocitySection pd.companies pd.hiring_velocity := by
  constructor
  · intro h
    simp only [analyze_hiring_trends, List.mem_append] at h
    rcases h with (h | h) | h
    · exact h
    · have h2 := roleSection_shape _ x h
      rw [not_role_of_velocity hx] at h2
      simp at h2
    · have h2 := locationSection_shape _ x h
      rw [not_loc_of_velocity hx] at h2
      simp at h2
  · intro h
    exact List.mem_append_left _ (List.mem_append_left _ h)

theorem mem_analyze_location (pd : AggData) {x : TrInsight}
    (hx : isLocIns x = true) :
    x ∈ analyze_hiring_trends pd ↔ x ∈ locationSection pd.locations_by_company := by
  constructor
  · intro h
    simp only [analyze_hiring_trends, List.mem_append] at h
    rcases h with (h | h) | h
    · have h2 := velocitySection_shape _ _ x h
      rw [not_velocity_of_loc hx] at h2
      simp at h2
    · have h2 := roleSection_shape _ x h
      rw [not_role_of_loc hx] at h2
      simp at h2
    · exact h
  · intro h
    exact List.mem_append_right _ h

/-! ## Claim C2 -/

/-- C2: the hiring-velocity series is split at `len // 2` (the extra entry
of an odd-length series goes to the recent half, `[half:]`), and for a
company appearing in `companies`, a hiring_surge insight is emitted iff the
earlier-half sum is positive and the percent change exceeds 30 strictly,
a hiring_decline iff it is below −30 strictly; a company with earlier-half
sum 0 gets neither. -/
theorem hiring_change_thresholds (pd : AggData) (rows : List (List (String × Int)))
    (c : String) (hv : pd.hiring_velocity = some rows) (hc : c ∈ pd.companies) :
    ((∃ p, TrInsight.hiringSurge c p ∈ analyze_hiring_trends pd) ↔
      (0 < sumFor c (rows.take (rows.length / 2)) ∧
        30 < ((sumFor c (rows.drop (rows.length / 2)) : ℚ) -
            (sumFor c (rows.take (rows.length / 2)) : ℚ)) /
          (sumFor c (rows.take (rows.length / 2)) : ℚ) * 100)) ∧
    ((∃ p, TrInsight.hiringDecline c p ∈ analyze_hiring_trends pd) ↔
      (0 < sumFor c (rows.take (rows.length / 2)) ∧
        ((sumFor c (rows.drop (rows.length / 2)) : ℚ) -
            (sumFor c (rows.take (rows.length / 2)) : ℚ)) /
          (sumFor c (rows.take (rows.length / 2)) : ℚ) * 100 < -30)) := by
  constructor
  · constructor
    · rintro ⟨p, hp⟩
      have hv2 := (mem_analyze_velocity pd
        (show isVelocityIns (TrInsight.hiringSurge c p) = true from rfl)).mp hp
      rw [hv] at hv2
      simp only [velocitySection] at hv2
      obtain ⟨c2, _, hmem⟩ := List.mem_flatMap.mp hv2
      split_ifs at hmem with h1 h2 h3
      · rw [List.mem_singleton] at hmem
        simp only [TrInsight.hiringSurge.injEq] at hmem
        obtain ⟨rfl, rfl⟩ := hmem
        exact ⟨h1, h2⟩
      · rw [List.mem_singleton] at hmem
        simp at hmem
      · exact absurd hmem (List.not_mem_nil _)
      · exact absurd hmem (List.not_mem_nil _)
    · rintro ⟨h1, h2⟩
      refine ⟨((sumFor c (rows.drop (rows.length / 2)) : ℚ) -
          (sumFor c (rows.take (rows.length / 2)) : ℚ)) /
        (sumFor c (rows.take (rows.length / 2)) : ℚ) * 100,
        List.mem_append_left _ (List.mem_append_left _ ?_)⟩
      rw [hv]
      simp only [velocitySection]
      apply List.mem_flatMap.mpr
      refine ⟨c, hc, ?_⟩
      rw [if_pos h1, if_pos h2]
      exact List.mem_singleton.mpr rfl
  · constructor
    · rintro ⟨p, hp⟩
      have hv2 := (mem_analyze_velocity pd
        (show isVelocityIns (TrInsight.hiringDecline c p) = true from rfl)).mp hp
      rw [hv] at hv2
      simp only [velocitySection] at hv2
      obtain ⟨c2, _, hmem⟩ := List.mem_flatMap.mp hv2
      split_ifs at hmem with h1 h2 h3
      · rw [List.mem_singleton] at hmem
        simp at hmem
      · rw [List.mem_singleton] at hmem
        simp only [TrInsight.hiringDecline.injEq] at hmem
        obtain ⟨rfl, rfl⟩ := hmem
        exact ⟨h1, h3⟩
      · exact absurd hmem (List.not_mem_nil _)
      · exact absurd hmem (List.not_mem_nil _)
    · rintro ⟨h1, h3⟩
      refine ⟨((sumFor c (rows.drop (rows.length / 2)) : ℚ) -
          (sumFor c (rows.take (rows.length / 2)) : ℚ)) /
        (sumFor c (rows.take (rows.length / 2)) : ℚ) * 100,
        List.mem_append_left _ (List.mem_append_left _ ?_)⟩
      rw [hv]
      simp only [velocitySection]
      apply List.mem_flatMap.mpr
      refine ⟨c, hc, ?_⟩
      have h2 : ¬ (30 : ℚ) <
          ((sumFor c (rows.drop (rows.length / 2)) : ℚ) -
            (sumFor c (rows.take (rows.length / 2)) : ℚ)) /
          (sumFor c (rows.take (rows.length / 2)) : ℚ) * 100 := by linarith
      rw [if_pos h1, if_neg h2, if_pos h3]
      exact List.mem_singleton.mpr rfl

/-- Witness for C2: with earlier-half sum 10 and recent-half sum 14 the
percent change is 40 and a hiring_surge is emitted. -/
theorem hiring_change_thresholds_witness :
    (c2pd.hiring_velocity = some c2rows ∧ "A" ∈ c2pd.companies ∧
      sumFor "A" (c2rows.take (c2rows.length / 2)) = 10 ∧
      sumFor "A" (c2rows.drop (c2rows.length / 2)) = 14) ∧
    ∃ p, TrInsight.hiringSurge "A" p ∈ analyze_hiring_trends c2pd := by
  refine ⟨⟨rfl, by decide, by decide, by decide⟩, ?_⟩
  apply (hiring_change_thresholds c2pd c2rows "A" rfl (by decide)).1.mpr
  have e1 : sumFor "A" (c2rows.take (c2rows.length / 2)) = 10 := by decide
  have e2 : sumFor "A" (c2rows.drop (c2rows.length / 2)) = 14 := by decide
  rw [e1, e2]
  constructor
  · decide
  · norm_num

/-! ## Claim C7 -/

/-- C7 counterexample: the location `"US Germany"` (count 3) matches the
keyword lists of both North America (`"US"`, tested first) and Europe
(`"Germany"`); the code has no `break`, so BOTH region tallies reach 3 and
both geographic_expansion insights are emitted — under the claim, only the
first matching region would be counted. -/
theorem geographic_first_match_cex :
    analyze_hiring_trends c7pd =
      [TrInsight.geographicExpansion "Acme" "North America" 3,
       TrInsight.geographicExpansion "Acme" "Europe" 3] := by
  have h0 : matchSum ["remote"] [("US Germany", 3)] = 0 := by decide
  have ht : (([("US Germany", 3)] : List (String × Int)).map fun p => p.2).sum = 3 := by
    decide
  have hrm : remotePart "Acme" [("US Germany", 3)] = [] := by
    rw [remotePart, h0, ht]
    rw [if_pos (by norm_num), if_neg (by norm_num)]
  have hNA : matchSum ["US", "USA", "United States", "Canada", "Mexico"]
      [("US Germany", 3)] = 3 := by decide
  have hEU : matchSum ["UK", "United Kingdom", "Germany", "France", "Spain", "Italy",
      "Netherlands", "Sweden"] [("US Germany", 3)] = 3 := by decide
  have hAS : matchSum ["China", "Japan", "India", "Singapore", "Hong Kong"]
      [("US Germany", 3)] = 0 := by decide
  have hLA : matchSum ["Brazil", "Argentina", "Colombia", "Chile", "Peru"]
      [("US Germany", 3)] = 0 := by decide
  have hAF : matchSum ["South Africa", "Nigeria", "Kenya", "Egypt"]
      [("US Germany", 3)] = 0 := by decide
  have hOC : matchSum ["Australia", "New Zealand"] [("US Germany", 3)] = 0 := by decide
  have hreg : regionPart "Acme" [("US Germany", 3)] =
      [TrInsight.geographicExpansion "Acme" "North America" 3,
       TrInsight.geographicExpansion "Acme" "Europe" 3] := by
    rw [regionPart, hiring_regions]
    simp [hNA, hEU, hAS, hLA, hAF, hOC]
  simp [analyze_hiring_trends, c7pd, velocitySection, roleSection, locationSection,
    hrm, hreg]

/-- C7 amended: in the geographic-expansion analysis each location
contributes its count to EVERY region whose keyword list it matches (there
is no first-match cut-off), and each region tally reported is exactly the
sum over all matching locations. -/
theorem geographic_counts_every_matching_region (pd : AggData)
    (l : List (String × List (String × Int)))
    (hl : pd.locations_by_company = some l) :
    (∀ company locations, (company, locations) ∈ l →
      ∀ rname kws, (rname, kws) ∈ hiring_regions →
        3 ≤ matchSum kws locations →
        TrInsight.geographicExpansion company rname (matchSum kws locations) ∈
          analyze_hiring_trends pd) ∧
    (∀ company rname n,
      TrInsight.geographicExpansion company rname n ∈ analyze_hiring_trends pd →
        ∃ locations kws, (company, locations) ∈ l ∧ (rname, kws) ∈ hiring_regions ∧
          n = matchSum kws locations ∧ 3 ≤ n) := by
  constructor
  · intro company locations hmem rname kws hrg hcnt
    apply List.mem_append_right
    rw [hl]
    simp only [locationSection]
    apply List.mem_flatMap.mpr
    refine ⟨(company, locations), hmem, ?_⟩
    apply List.mem_append_right
    simp only [regionPart]
    apply List.mem_flatMap.mpr
    refine ⟨(rname, kws), hrg, ?_⟩
    rw [if_pos hcnt]
    exact List.mem_singleton.mpr rfl
  · intro company rname n h
    have h2 := (mem_analyze_location pd
      (show isLocIns (TrInsight.geographicExpansion company rname n) = true from rfl)).mp h
    rw [hl] at h2
    simp only [locationSection] at h2
    obtain ⟨p, hp, hm⟩ := List.mem_flatMap.mp h2
    rcases List.mem_append.mp hm with hm1 | hm2
    · exfalso
      simp only [remotePart] at hm1
      split_ifs at hm1
      · rw [List.mem_singleton] at hm1
        simp at hm1
      · exact List.not_mem_nil _ hm1
      · exact List.not_mem_nil _ hm1
    · simp only [regionPart] at hm2
      obtain ⟨rg, hrg, hm3⟩ := List.mem_flatMap.mp hm2
      split_ifs at hm3 with hcond
      · rw [List.mem_singleton] at hm3
        simp only [TrInsight.geographicExpansion.injEq] at hm3
        obtain ⟨hc1, hc2, hc3⟩ := hm3
        refine ⟨p.2, rg.2, ?_, ?_, hc3, hc3 ▸ hcond⟩
        · rw [hc1]
          simpa using hp
        · rw [hc2]
          simpa using hrg
      · exact absurd hm3 (List.not_mem_nil _)

/-- Witness for C7 (amended): applying the theorem at the two-region
location yields the Europe insight even though North America matched
first. -/
theorem geographic_counts_every_matching_region_witness :
    (c7pd.locations_by_company = some [("Acme", [("US Germany", 3)])] ∧
      3 ≤ matchSum ["UK", "United Kingdom", "Germany", "France", "Spain", "Italy",
        "Netherlands", "Sweden"] [("US Germany", 3)]) ∧
    TrInsight.geographicExpansion "Acme" "Europe" 3 ∈ analyze_hiring_trends c7pd := by
  refine ⟨⟨rfl, by decide⟩, ?_⟩
  have h := (geographic_counts_every_matching_region c7pd _ rfl).1 "Acme"
    [("US Germany", 3)] (by decide) "Europe"
    ["UK", "United Kingdom", "Germany", "France", "Spain", "Italy", "Netherlands", "Sweden"]
    (by decide) (by decide)
  have he : matchSum ["UK", "United Kingdom", "Germany", "France", "Spain", "Italy",
      "Netherlands", "Sweden"] [("US Germany", 3)] = 3 := by decide
  rw [he] at h
  exact h

/-! ## Claim C6 -/

/-- C6: a unique_skill insight for skill `s` and company `A` is emitted iff
`A` appears in the companies list and `(s, count)` is among the top three
(by count, stable sort) of `A`'s skills that no other company lists and
whose count is at least 2; the candidate condition itself is exactly
"`(s, n)` is in `A`'s map, no other company's map contains `s`, and
`n ≥ 2`". -/
theorem unique_skill_iff (pd : AggData) (sbc : List (String × List (String × Int)))
    (A : String) (m : List (String × Int)) (s : String) (n : Int)
    (hs : pd.skills_by_company = some sbc) (hA : dget A sbc = some m) :
    (SkInsight.uniqueSkill A s n ∈ identify_skill_patterns pd ↔
      (A ∈ pd.companies ∧ (s, n) ∈ uniqueTop3 sbc A m)) ∧
    ((s, n) ∈ uniqueCandidates sbc A m ↔
      ((s, n) ∈ m ∧ (sbc.filter fun p => p.1 ≠ A ∧ (dget s p.2).isSome).length = 0 ∧
        2 ≤ n)) := by
  constructor
  · constructor
    · intro h
      simp only [identify_skill_patterns, hs] at h
      by_cases hguard : pd.companies.length = 0 ∧ allSkillsOf sbc ≠ []
      · rw [if_pos hguard] at h
        exact absurd h (List.not_mem_nil _)
      · rw [if_neg hguard] at h
        rcases List.mem_append.mp h with h1 | h2
        · rcases List.mem_append.mp h1 with he | hc
          · obtain ⟨q, _, hq⟩ := List.mem_map.mp he
            exact absurd hq (by simp)
          · obtain ⟨q, _, hq⟩ := List.mem_map.mp hc
            exact absurd hq (by simp)
        · obtain ⟨company, hcm, hmm⟩ := List.mem_flatMap.mp h2
          cases hdg : dget company sbc with
          | none => rw [hdg] at hmm; exact absurd hmm (List.not_mem_nil _)
          | some cs =>
            rw [hdg] at hmm
            obtain ⟨⟨q1, q2⟩, hq3, hqe⟩ := List.mem_map.mp hmm
            simp only [SkInsight.uniqueSkill.injEq] at hqe
            obtain ⟨rfl, rfl, rfl⟩ := hqe
            rw [hA] at hdg
            obtain rfl := Option.some.inj hdg
            exact ⟨hcm, hq3⟩
    · rintro ⟨hAc, htop⟩
      simp only [identify_skill_patterns, hs]
      have hguard : ¬ (pd.companies.length = 0 ∧ allSkillsOf sbc ≠ []) := by
        rintro ⟨h0, -⟩
        rw [List.length_eq_zero] at h0
        rw [h0] at hAc
        exact absurd hAc (List.not_mem_nil _)
      rw [if_neg hguard]
      apply List.mem_append_right
      apply List.mem_flatMap.mpr
      refine ⟨A, hAc, ?_⟩
      rw [hA]
      exact List.mem_map.mpr ⟨(s, n), htop, rfl⟩
  · constructor
    · intro h
      obtain ⟨q, hq, hqe⟩ := List.mem_filterMap.mp h
      split_ifs at hqe with hcond
      obtain rfl := Option.some.inj hqe
      exact ⟨hq, hcond.1, hcond.2⟩
    · rintro ⟨hm, hz, hn⟩
      apply List.mem_filterMap.mpr
      refine ⟨(s, n), hm, ?_⟩
      rw [if_pos (show _ ∧ _ from ⟨hz, hn⟩)]

/-- Witness for C6: `"Haskell"` listed only by company `"A"` with count 3
yields a unique_skill insight for `"A"`. -/
theorem unique_skill_iff_witness :
    (c6pd.skills_by_company = some c6sbc ∧ dget "A" c6sbc = some [("Haskell", 3)] ∧
      "A" ∈ c6pd.companies ∧ ("Haskell", (3 : Int)) ∈ uniqueTop3 c6sbc "A" [("Haskell", 3)]) ∧
    SkInsight.uniqueSkill "A" "Haskell" 3 ∈ identify_skill_patterns c6pd := by
  refine ⟨⟨rfl, by decide, by decide, by decide⟩, ?_⟩
  exact (unique_skill_iff c6pd c6sbc "A" [("Haskell", 3)] "Haskell" 3 rfl
    (by decide)).1.mpr ⟨by decide, by decide⟩

/-! ## Claim C8 -/

theorem sBlockSkills_mem (ins : List SIn) :
    ∀ r ∈ sBlockSkills ins, r.rtype = "skill_investment" ∧ r.priority = "high" := by
  intro r h
  simp only [sBlockSkills] at h
  split_ifs at h
  · rw [List.mem_singleton] at h
    subst h
    exact ⟨rfl, rfl⟩
  · exact absurd h (List.not_mem_nil _)

theorem sBlockSkills_len (ins : List SIn) : (sBlockSkills ins).length ≤ 1 := by
  simp only [sBlockSkills]
  split_ifs <;> simp

theorem sBlockGeo_mem (ins : List SIn) :
    ∀ r ∈ sBlockGeo ins, r.rtype = "geographic_expansion" ∧ r.priority = "medium" := by
  intro r h
  simp only [sBlockGeo] at h
  cases hmc : mostCommon (ins.filterMap fun i =>
      match i with
      | SIn.geographicShift rg => some rg
      | _ => none) with
  | none => rw [hmc] at h; exact absurd h (List.not_mem_nil _)
  | some q =>
    rw [hmc] at h
    obtain ⟨tr, cnt⟩ := q
    dsimp only at h
    split_ifs at h
    · rw [List.mem_singleton] at h
      subst h
      exact ⟨rfl, rfl⟩
    · exact absurd h (List.not_mem_nil _)

theorem sBlockGeo_len (ins : List SIn) : (sBlockGeo ins).length ≤ 1 := by
  simp only [sBlockGeo]
  cases mostCommon (ins.filterMap fun i =>
      match i with
      | SIn.geographicShift rg => some rg
      | _ => none) with
  | none => simp
  | some q =>
    obtain ⟨x1, cnt⟩ := q
    dsimp only
    split_ifs <;> simp

theorem sBlockSurge_mem (ins : List SIn) :
    ∀ r ∈ sBlockSurge ins, r.rtype = "competitive_monitoring" ∧ r.priority = "high" := by
  intro r h
  simp only [sBlockSurge] at h
  split_ifs at h
  · rw [List.mem_singleton] at h
    subst h
    exact ⟨rfl, rfl⟩
  · exact absurd h (List.not_mem_nil _)

theorem sBlockSurge_len (ins : List SIn) : (sBlockSurge ins).length ≤ 1 := by
  simp only [sBlockSurge]
  split_ifs <;> simp

theorem sBlockTech_mem (ins : List SIn) :
    ∀ r ∈ sBlockTech ins, r.rtype = "technology_investment" ∧ r.priority = "high" := by
  intro r h
  simp only [sBlockTech] at h
  cases hmc : mostCommon (ins.filterMap fun i =>
      match i with
      | SIn.technologyFocus c => some c
      | _ => none) with
  | none => rw [hmc] at h; exact absurd h (List.not_mem_nil _)
  | some q =>
    rw [hmc] at h
    obtain ⟨tc, cnt⟩ := q
    dsimp only at h
    split_ifs at h
    · rw [List.mem_singleton] at h
      subst h
      exact ⟨rfl, rfl⟩
    · exact absurd h (List.not_mem_nil _)

theorem sBlockTech_len (ins : List SIn) : (sBlockTech ins).length ≤ 1 := by
  simp only [sBlockTech]
  cases mostCommon (ins.filterMap fun i =>
      match i with
      | SIn.technologyFocus c => some c
      | _ => none) with
  | none => simp
  | some q =>
    obtain ⟨x1, cnt⟩ := q
    dsimp only
    split_ifs <;> simp

theorem sBlockUnique_mem (ins : List SIn) :
    ∀ r ∈ sBlockUnique ins, r.rtype = "competitive_advantage" ∧ r.priority = "medium" := by
  intro r h
  simp only [sBlockUnique] at h
  cases hus : ins.filterMap fun i =>
      match i with
      | SIn.uniqueSkill c s => some (c, s)
      | _ => none with
  | nil => rw [hus] at h; exact absurd h (List.not_mem_nil _)
  | cons q t =>
    rw [hus] at h
    obtain ⟨c, s⟩ := q
    rw [List.mem_singleton] at h
    subst h
    exact ⟨rfl, rfl⟩

theorem sBlockUnique_len (ins : List SIn) : (sBlockUnique ins).length ≤ 1 := by
  simp only [sBlockUnique]
  cases hus : ins.filterMap fun i =>
      match i with
      | SIn.uniqueSkill c s => some (c, s)
      | _ => none with
  | nil => simp
  | cons q t => obtain ⟨c, s⟩ := q; simp

theorem sBlockLead_mem (ins : List SIn) :
    ∀ r ∈ sBlockLead ins, r.rtype = "strategic_shift" ∧ r.priority = "medium" := by
  intro r h
  simp only [sBlockLead] at h
  split_ifs at h
  · rw [List.mem_singleton] at h
    subst h
    exact ⟨rfl, rfl⟩
  · exact absurd h (List.not_mem_nil _)

theorem sBlockLead_len (ins : List SIn) : (sBlockLead ins).length ≤ 1 := by
  simp only [sBlockLead]
  split_ifs <;> simp

theorem sBlockDiv_mem (ins : List SIn) :
    ∀ r ∈ sBlockDiv ins, r.rtype = "strategic_positioning" ∧ r.priority = "low" := by
  intro r h
  simp only [sBlockDiv] at h
  obtain ⟨d, _, hd⟩ := List.mem_map.mp h
  subst hd
  exact ⟨rfl, rfl⟩

theorem sBlockDiv_len (ins : List SIn) : (sBlockDiv ins).length ≤ 2 := by
  simp only [sBlockDiv, List.length_map]
  exact List.length_take_le 2 _

theorem filter_rtype_nil {l : List SRec} {ty t : String}
    (hl : ∀ r ∈ l, r.rtype = ty) (hne : ty ≠ t) :
    l.filter (fun r => r.rtype = t) = [] := by
  induction l with
  | nil => rfl
  | cons a l2 ih =>
    rw [List.filter_cons]
    have ha : a.rtype = ty := hl a (List.mem_cons_self a l2)
    simp [ha, hne, ih fun r hr => hl r (List.mem_cons_of_mem a hr)]

theorem block_filter_bound {l : List SRec} {ty : String} {k : Nat}
    (hl : ∀ r ∈ l, r.rtype = ty) (hlen : l.length ≤ k) (t : String) :
    (l.filter fun r => r.rtype = t).length ≤ if ty = t then k else 0 := by
  by_cases h : ty = t
  · rw [if_pos h]
    exact le_trans (List.length_filter_le _ _) hlen
  · rw [if_neg h, filter_rtype_nil hl h]
    simp

/-- C8 counterexample: with two divergent_strategy insights the function
emits TWO strategic_positioning recommendations, so "at most one
recommendation per recognized type-category" fails as stated. -/
theorem strategic_positioning_twice_cex :
    ¬ (((generate_strategic_recommendations c8cex).filter
        fun r => r.rtype = "strategic_positioning").length ≤ 1) := by
  decide

/-- C8 amended: at most one recommendation per recognized type-category
except strategic_positioning, of which at most TWO are emitted (one per
divergent_strategy insight, capped at the first two); every recommendation
carries its fixed hard-coded priority label and one of the seven recognized
types, so unrecognized insight types produce nothing. -/
theorem strategic_recommendations_shape (insights : List SIn) :
    (∀ t ∈ ["skill_investment", "geographic_expansion", "competitive_monitoring",
            "technology_investment", "competitive_advantage", "strategic_shift"],
      ((generate_strategic_recommendations insights).filter
        fun r => r.rtype = t).length ≤ 1) ∧
    ((generate_strategic_recommendations insights).filter
      fun r => r.rtype = "strategic_positioning").length ≤ 2 ∧
    (∀ r ∈ generate_strategic_recommendations insights,
      r.rtype ∈ recognizedTypes ∧ r.priority = fixedPriority r.rtype) := by
  have key : ∀ t : String,
      ((generate_strategic_recommendations insights).filter
        fun r => r.rtype = t).length ≤
      (if "skill_investment" = t then 1 else 0) +
      (if "geographic_expansion" = t then 1 else 0) +
      (if "competitive_monitoring" = t then 1 else 0) +
      (if "technology_investment" = t then 1 else 0) +
      (if "competitive_advantage" = t then 1 else 0) +
      (if "strategic_shift" = t then 1 else 0) +
      (if "strategic_positioning" = t then 2 else 0) := by
    intro t
    have b1 := block_filter_bound (sBlockSkills_mem insights · · |>.1) (sBlockSkills_len insights) t
    have b2 := block_filter_bound (sBlockGeo_mem insights · · |>.1) (sBlockGeo_len insights) t
    have b3 := block_filter_bound (sBlockSurge_mem insights · · |>.1) (sBlockSurge_len insights) t
    have b4 := block_filter_bound (sBlockTech_mem insights · · |>.1) (sBlockTech_len insights) t
    have b5 := block_filter_bound (sBlockUnique_mem insights · · |>.1) (sBlockUnique_len insights) t
    have b6 := block_filter_bound (sBlockLead_mem insights · · |>.1) (sBlockLead_len insights) t
    have b7 := block_filter_bound (sBlockDiv_mem insights · · |>.1) (sBlockDiv_len insights) t
    simp only [generate_strategic_recommendations, List.filter_append, List.length_append]
    omega
  refine ⟨?_, ?_, ?_⟩
  · intro t ht
    have h := key t
    fin_cases ht <;> simp_all
  · have h := key "strategic_positioning"
    simp only [show ("skill_investment" = "strategic_positioning") = False by simp,
      show ("geographic_expansion" = "strategic_positioning") = False by simp,
      show ("competitive_monitoring" = "strategic_positioning") = False by simp,
      show ("technology_investment" = "strategic_positioning") = False by simp,
      show ("competitive_advantage" = "strategic_positioning") = False by simp,
      show ("strategic_shift" = "strategic_positioning") = False by simp,
      if_false, if_neg, if_pos] at h
    simpa using h
  · intro r hr
    simp only [generate_strategic_recommendations, List.mem_append] at hr
    rcases hr with ((((((h | h) | h) | h) | h) | h) | h)
    · obtain ⟨ht, hp⟩ := sBlockSkills_mem insights r h
      exact ⟨by rw [ht]; decide, by rw [hp, ht]; decide⟩
    · obtain ⟨ht, hp⟩ := sBlockGeo_mem insights r h
      exact ⟨by rw [ht]; decide, by rw [hp, ht]; decide⟩
    · obtain ⟨ht, hp⟩ := sBlockSurge_mem insights r h
      exact ⟨by rw [ht]; decide, by rw [hp, ht]; decide⟩
    · obtain ⟨ht, hp⟩ := sBlockTech_mem insights r h
      exact ⟨by rw [ht]; decide, by rw [hp, ht]; decide⟩
    · obtain ⟨ht, hp⟩ := sBlockUnique_mem insights r h
      exact ⟨by rw [ht]; decide, by rw [hp, ht]; decide⟩
    · obtain ⟨ht, hp⟩ := sBlockLead_mem insights r h
      exact ⟨by rw [ht]; decide, by rw [hp, ht]; decide⟩
    · obtain ⟨ht, hp⟩ := sBlockDiv_mem insights r h
      exact ⟨by rw [ht]; decide, by rw [hp, ht]; decide⟩

/-- Witness for C8 (amended), applied at the two-divergent-insight input. -/
theorem strategic_recommendations_shape_witness :
    ("skill_investment" ∈ ["skill_investment", "geographic_expansion",
        "competitive_monitoring", "technology_investment", "competitive_advantage",
        "strategic_shift"] ∧
      ((generate_strategic_recommendations c8cex).filter
        fun r => r.rtype = "skill_investment").length ≤ 1) ∧
    ((generate_strategic_recommendations c8cex).filter
      fun r => r.rtype = "strategic_positioning").length ≤ 2 :=
  ⟨⟨by decide, (strategic_recommendations_shape c8cex).1 "skill_investment" (by decide)⟩,
   (strategic_recommendations_shape c8cex).2.1⟩

/-! ## Claim C9 -/

theorem dget_appendGroup_self (k : String) (v : Option String)
    (l : List (String × List (Option String))) :
    dget k (appendGroup k v l) = some ((dget k l).getD [] ++ [v]) := by
  induction l with
  | nil => simp [appendGroup, dget]
  | cons p t ih =>
    obtain ⟨k2, l2⟩ := p
    by_cases h : k = k2
    · subst h; simp [appendGroup, dget]
    · simp [appendGroup, dget, h, ih]

theorem dget_appendGroup_ne {k k2 : String} (h : k ≠ k2) (v : Option String)
    (l : List (String × List (Option String))) :
    dget k (appendGroup k2 v l) = dget k l := by
  induction l with
  | nil => simp [appendGroup, dget, h]
  | cons p t ih =>
    obtain ⟨k3, l3⟩ := p
    by_cases h2 : k2 = k3
    · subst h2; simp [appendGroup, dget, h]
    · by_cases h3 : k = k3 <;> simp [appendGroup, dget, h2, h3, ih]

theorem mem_keys_appendGroup {x k : String} {v : Option String}
    {l : List (String × List (Option String))} :
    x ∈ (appendGroup k v l).map Prod.fst ↔ x ∈ l.map Prod.fst ∨ x = k := by
  induction l with
  | nil => simp [appendGroup]
  | cons p t ih =>
    obtain ⟨k2, l2⟩ := p
    by_cases h : k = k2
    · subst h; simp [appendGroup]; tauto
    · simp [appendGroup, h, ih]; tauto

theorem appendGroup_keys_nodup {k : String} {v : Option String}
    {l : List (String × List (Option String))} (h : (l.map Prod.fst).Nodup) :
    ((appendGroup k v l).map Prod.fst).Nodup := by
  induction l with
  | nil => simp [appendGroup]
  | cons p t ih =>
    obtain ⟨k2, l2⟩ := p
    rw [List.map_cons, List.nodup_cons] at h
    by_cases hk : k = k2
    · subst hk
      simpa [appendGroup, List.nodup_cons] using h
    · rw [show appendGroup k v ((k2, l2) :: t) = (k2, l2) :: appendGroup k v t by
        simp [appendGroup, hk]]
      rw [List.map_cons, List.nodup_cons]
      refine ⟨fun hm => ?_, ih h.2⟩
      rcases mem_keys_appendGroup.mp hm with h2 | h2
      · exact h.1 h2
      · exact hk h2.symm

theorem mem_dget [DecidableEq κ] {l : List (κ × α)} (hnd : (l.map Prod.fst).Nodup)
    {k : κ} {v : α} (h : (k, v) ∈ l) : dget k l = some v := by
  induction l with
  | nil => cases h
  | cons p t ih =>
    obtain ⟨k2, v2⟩ := p
    rw [List.map_cons, List.nodup_cons] at hnd
    rcases List.mem_cons.mp h with heq | hmem
    · obtain ⟨rfl, rfl⟩ := Prod.mk.injEq .. ▸ heq
      simp [dget]
    · have hne : k ≠ k2 := by
        intro hEq
        have h3 : Prod.fst (k, v) ∈ List.map Prod.fst t := List.mem_map_of_mem Prod.fst hmem
        rw [hEq] at h3
        exact hnd.1 h3
      simp only [dget, if_neg hne]
      exact ih hnd.2 hmem

theorem cbi_fold_lookup (cdata : List CompanyMeta) (k : String)
    (acc : List (String × List (Option String))) :
    dget k (cdata.foldl
      (fun acc cm =>
        match cm.industry with
        | some ind => appendGroup ind cm.name acc
        | none => acc) acc) =
    match dget k acc with
    | some l => some (l ++ industryMembers k cdata)
    | none =>
      if industryMembers k cdata = [] then none else some (industryMembers k cdata) := by
  induction cdata generalizing acc with
  | nil =>
    cases h : dget k acc <;> simp [industryMembers, h]
  | cons cm t ih =>
    rw [List.foldl_cons]
    cases him : cm.industry with
    | none =>
      dsimp only
      rw [ih]
      have hm : industryMembers k (cm :: t) = industryMembers k t := by
        simp [industryMembers, List.filter_cons, him]
      rw [hm]
    | some ind =>
      dsimp only
      by_cases hik : ind = k
      · subst hik
        rw [ih]
        rw [dget_appendGroup_self]
        have hm : industryMembers ind (cm :: t) = cm.name :: industryMembers ind t := by
          simp [industryMembers, List.filter_cons, him]
        rw [hm]
        cases h : dget ind acc <;> simp [h]
      · have hki : k ≠ ind := fun hEq => hik hEq.symm
        rw [ih, dget_appendGroup_ne hki]
        have hm : industryMembers k (cm :: t) = industryMembers k t := by
          have : ¬ (cm.industry = some k) := by rw [him]; simp [hik]
          simp [industryMembers, List.filter_cons, this]
        rw [hm]

theorem cbi_lookup (cdata : List CompanyMeta) (k : String) :
    dget k (companiesByIndustry cdata) =
      if industryMembers k cdata = [] then none else some (industryMembers k cdata) := by
  have h := cbi_fold_lookup cdata k []
  simpa [companiesByIndustry, dget] using h

theorem cbi_fold_keys_nodup (cdata : List CompanyMeta) :
    ∀ acc : List (String × List (Option String)), ((acc.map Prod.fst).Nodup) →
    (((cdata.foldl
      (fun acc cm =>
        match cm.industry with
        | some ind => appendGroup ind cm.name acc
        | none => acc) acc)).map Prod.fst).Nodup := by
  induction cdata with
  | nil => intro acc h; exact h
  | cons cm t ih =>
    intro acc h
    rw [List.foldl_cons]
    cases him : cm.industry with
    | none => exact ih acc h
    | some ind => exact ih _ (appendGroup_keys_nodup h)

theorem cbi_keys_nodup (cdata : List CompanyMeta) :
    ((companiesByIndustry cdata).map Prod.fst).Nodup :=
  cbi_fold_keys_nodup cdata [] (by simp)

/-- C9: an industry label carried by fewer than two companies is skipped
entirely — its entry in the returned mapping (present whenever at least one
company carries the label) holds no insight records. -/
theorem industry_skip_small (pd : AggData) (companies_data : List CompanyMeta)
    (i : String)
    (hsmall : (companies_data.filter fun cm => cm.industry = some i).length < 2) :
    ∀ l, (i, l) ∈ analyze_industry_trends pd companies_data → l = [] := by
  intro l hmem
  simp only [analyze_industry_trends] at hmem
  obtain ⟨g, hg, hge⟩ := List.mem_map.mp hmem
  simp only [Prod.mk.injEq] at hge
  obtain ⟨hkey, hval⟩ := hge
  have hdg : dget g.1 (companiesByIndustry companies_data) = some g.2 :=
    mem_dget (cbi_keys_nodup companies_data) (by simpa using hg)
  rw [hkey] at hdg
  rw [cbi_lookup] at hdg
  split_ifs at hdg with hnil
  have h2 : g.2 = industryMembers i companies_data := (Option.some.inj hdg).symm
  have hlen : g.2.length < 2 := by
    rw [h2, industryMembers, List.length_map]
    exact hsmall
  rw [← hval, if_pos hlen]

/-- Witness for C9: one company in `"Fintech"` — the industry appears in
the result with an empty insight list. -/
theorem industry_skip_small_witness :
    ((c9meta.filter fun cm => cm.industry = some "Fintech").length < 2 ∧
      ("Fintech", ([] : List IndInsight)) ∈ analyze_industry_trends emptyAgg c9meta) ∧
    ([] : List IndInsight) = [] :=
  ⟨⟨by decide, by decide⟩,
   industry_skip_small emptyAgg c9meta "Fintech" (by decide) [] (by decide)⟩

end Openstrat
